import Mathlib

/-!
Verification development for the Blink-DB repository (an in-memory key-value
store with LRU eviction, TTL expiry, and a RESP-2 network front end).

The definitions below are shallow embeddings of the C++ sources:
* `HashTable` embeds `src/.../HashTable.h` (chained hash table, load-factor
  driven resize).  Keys and values are type parameters, the C++ `std::hash`
  is a function parameter `hf`.  The C++ comparisons `size >= 0.7 * capacity`
  and `size < 0.2 * capacity` are embedded as the exact rational comparisons
  `7 * capacity ≤ 10 * size` and `5 * size < capacity`; on the power-of-two
  capacities reachable from the default capacity 8 the double-precision
  comparisons agree with the exact ones (0.7·cap and 0.2·cap are never
  integers when cap is a power of two, and the rounding error of the double
  constants is far below 1).
* `MemoryManager` embeds `src/blink-db/part-a/src/MemoryManager.h`.
* `StorageEngine` embeds `StorageEngine.h/cpp`.  C++ strings are `List Char`,
  `std::chrono` timestamps and second counts are `Int`; each operation takes
  the current wall-clock time `now` as an argument, and the (sub-microsecond
  separated) repeated `now()` calls inside one operation are modelled as the
  same instant.  `std::chrono::seconds::max()` is the sentinel `secondsMax`.
-/

namespace Blink

/-- One bucket chain node list; a bucket is a list of (key, value) pairs,
head of the list = head of the C++ chain. -/
structure HashTable (K V : Type) where
  table : List (List (K × V))
  capacity : Nat
  size : Nat
deriving DecidableEq

namespace HashTable

variable {K V : Type} [DecidableEq K]

/-- `HashTable(initial_capacity)` constructor with valid capacity (the C++
constructor throws on capacity < 1; callers in this repo use the default 8). -/
def empty (cap : Nat) : HashTable K V :=
  ⟨List.replicate cap [], cap, 0⟩

/-- `hash(key) % capacity` (resp. `% new_capacity` inside `resize`). -/
def hashIdx (hf : K → Nat) (cap : Nat) (k : K) : Nat := hf k % cap

/-- One step of the `resize` rehash loop: unlink a node and prepend it to the
bucket `hash(k) % new_capacity` of the new table. -/
def reNode (hf : K → Nat) (newCap : Nat) (tab : List (List (K × V))) (p : K × V) :
    List (List (K × V)) :=
  tab.set (hashIdx hf newCap p.1) (p :: tab.getD (hashIdx hf newCap p.1) [])

/-- `HashTable::resize(new_capacity)`: rehash every node, bucket by bucket,
walking each chain from its head. -/
def resize (hf : K → Nat) (newCap : Nat) (ht : HashTable K V) : HashTable K V :=
  { table := ht.table.foldl (fun nt chain => chain.foldl (reNode hf newCap) nt)
      (List.replicate newCap []),
    capacity := newCap,
    size := ht.size }

/-- The C++ `insert` update loop: overwrite the value of the first node whose
key matches, leave the rest of the chain alone. -/
def updateChain (k : K) (v : V) : List (K × V) → List (K × V)
  | [] => []
  | p :: rest => if p.1 = k then (p.1, v) :: rest else p :: updateChain k v rest

/-- Whether a chain holds the key (the C++ update-scan succeeds). -/
def chainHas (k : K) (c : List (K × V)) : Bool :=
  c.any (fun p => decide (p.1 = k))

/-- `HashTable::insert(key, value)`: grow when `size >= 0.7 * capacity`
(exact form `7*capacity ≤ 10*size`), then overwrite in place or prepend. -/
def insert (hf : K → Nat) (k : K) (v : V) (ht : HashTable K V) : HashTable K V :=
  let ht1 := if 7 * ht.capacity ≤ 10 * ht.size then ht.resize hf (2 * ht.capacity) else ht
  let i := hashIdx hf ht1.capacity k
  let chain := ht1.table.getD i []
  if chainHas k chain then
    { ht1 with table := ht1.table.set i (updateChain k v chain) }
  else
    { ht1 with table := ht1.table.set i ((k, v) :: chain), size := ht1.size + 1 }

/-- `HashTable::get(key, value&)`: scan the chain for the first exact match. -/
def get (hf : K → Nat) (k : K) (ht : HashTable K V) : Option V :=
  ((ht.table.getD (hashIdx hf ht.capacity k) []).find? (fun p => decide (p.1 = k))).map
    Prod.snd

/-- The C++ `remove` unlink loop: drop the first node whose key matches;
`none` when the key is absent from the chain. -/
def removeChain (k : K) : List (K × V) → Option (List (K × V))
  | [] => none
  | p :: rest =>
    if p.1 = k then some rest else (removeChain k rest).map (fun c => p :: c)

/-- `HashTable::remove(key)`: unlink, decrement size, shrink when
`capacity > 8 && size < 0.2 * capacity` (exact form `5*size < capacity`). -/
def remove (hf : K → Nat) (k : K) (ht : HashTable K V) : Bool × HashTable K V :=
  let i := hashIdx hf ht.capacity k
  match removeChain k (ht.table.getD i []) with
  | none => (false, ht)
  | some c =>
    let ht1 : HashTable K V :=
      { table := ht.table.set i c, capacity := ht.capacity, size := ht.size - 1 }
    if 8 < ht.capacity ∧ 5 * ht1.size < ht.capacity then
      (true, ht1.resize hf (ht.capacity / 2))
    else
      (true, ht1)

/-- `HashTable::get_capacity()`. -/
def get_capacity (ht : HashTable K V) : Nat := ht.capacity

end HashTable

/-- Every node sits in the bucket its key hashes to. -/
def idxOk {K V : Type} (hf : K → Nat) (cap : Nat)
    (tab : List (List (K × V))) : Prop :=
  ∀ j, j < tab.length → ∀ p ∈ tab.getD j [], HashTable.hashIdx hf cap p.1 = j

/-- The C++ class invariant of `HashTable`: the bucket vector has exactly
`capacity` (positive) buckets, every node hashes to its bucket, and no key is
stored twice. -/
def HTWF {K V : Type} (hf : K → Nat) (ht : HashTable K V) : Prop :=
  ht.table.length = ht.capacity ∧ 0 < ht.capacity ∧
    idxOk hf ht.capacity ht.table ∧ (ht.table.flatten.map Prod.fst).Nodup

/-- `MemoryManager` (MemoryManager.h): the LRU queue, front = MRU. -/
structure MemoryManager where
  lru_queue : List (List Char)
deriving DecidableEq

namespace MemoryManager

/-- `update_lru(key)`: `lru_queue.remove(key)` (drops every occurrence)
followed by `push_front(key)`. -/
def update_lru (k : List Char) (m : MemoryManager) : MemoryManager :=
  ⟨k :: m.lru_queue.filter (fun x => decide (¬ x = k))⟩

/-- `evict_lru()`: pop the back and return it, or return the empty string on
an empty queue.  Note the empty string is also a legal key. -/
def evict_lru (m : MemoryManager) : List Char × MemoryManager :=
  match m.lru_queue with
  | [] => ([], m)
  | x :: xs => ((x :: xs).getLastD [], ⟨(x :: xs).dropLast⟩)

/-- `evict_lru(key)`: `lru_queue.remove(key)`. -/
def evict_lru_key (k : List Char) (m : MemoryManager) : MemoryManager :=
  ⟨m.lru_queue.filter (fun x => decide (¬ x = k))⟩

end MemoryManager

/-- `StorageEngine::Entry`: value, ttl in seconds, last-access timestamp. -/
structure Entry where
  value : List Char
  ttl : Int
  last_accessed : Int
deriving DecidableEq

/-- `std::chrono::seconds::max()`, the "never expires" sentinel. -/
def secondsMax : Int := 9223372036854775807

/-- `StorageEngine` state: hash table, LRU manager, byte counter, byte cap. -/
structure StorageEngine where
  store : HashTable (List Char) Entry
  mem_manager : MemoryManager
  current_memory : Nat
  max_memory : Nat
deriving DecidableEq

namespace StorageEngine

/-- Fuel-indexed unfolding of the `enforce_memory_limits` while-loop; the fuel
only bounds the iteration count, `lru_queue.length + 1` always suffices
because every iteration pops the LRU back. -/
def enforceF (hf : List Char → Nat) : Nat → StorageEngine → StorageEngine
  | 0, e => e
  | fuel + 1, e =>
    if e.current_memory ≤ e.max_memory then e
    else
      match e.mem_manager.evict_lru with
      | (key, mm1) =>
        if key = [] then { e with mem_manager := mm1 }
        else
          match e.store.get hf key with
          | some entry =>
            enforceF hf fuel
              { store := (e.store.remove hf key).2,
                mem_manager := mm1,
                current_memory := e.current_memory - (key.length + entry.value.length),
                max_memory := e.max_memory }
          | none => enforceF hf fuel { e with mem_manager := mm1 }

/-- `StorageEngine::enforce_memory_limits()`: evict LRU victims while
`current_memory > max_memory`; stop when `evict_lru` returns the empty
string (empty queue — or the empty-string key). -/
def enforce_memory_limits (hf : List Char → Nat) (e : StorageEngine) : StorageEngine :=
  enforceF hf (e.mem_manager.lru_queue.length + 1) e

/-- `StorageEngine::set(key, value, ttl)`. -/
def set (hf : List Char → Nat) (now : Int) (key value : List Char) (ttl : Int)
    (e : StorageEngine) : StorageEngine :=
  let new_entry : Entry := ⟨value, ttl, now⟩
  let cur1 :=
    match e.store.get hf key with
    | some old => e.current_memory - (key.length + old.value.length)
    | none => e.current_memory
  let store1 := e.store.insert hf key new_entry
  let cur2 := cur1 + key.length + value.length
  let mm1 := e.mem_manager.update_lru key
  enforce_memory_limits hf
    { store := store1, mem_manager := mm1, current_memory := cur2,
      max_memory := e.max_memory }

/-- `StorageEngine::get(key)`.  The two `system_clock::now()` calls inside the
C++ body (the access-time refresh and the expiry comparison) are modelled as
the same instant `now`; they are issued back to back in the source. -/
def get (hf : List Char → Nat) (now : Int) (key : List Char) (e : StorageEngine) :
    List Char × StorageEngine :=
  match e.store.get hf key with
  | none => ([], e)
  | some entry =>
    let entry1 : Entry := { entry with last_accessed := now }
    let store1 := e.store.insert hf key entry1
    if entry1.ttl ≠ secondsMax ∧ now - entry1.last_accessed > entry1.ttl then
      ([], { e with store := (store1.remove hf key).2 })
    else
      (entry1.value, { e with store := store1,
                              mem_manager := e.mem_manager.update_lru key })

/-- `StorageEngine::del(key)`. -/
def del (hf : List Char → Nat) (key : List Char) (e : StorageEngine) :
    Bool × StorageEngine :=
  match e.store.get hf key with
  | none => (false, e)
  | some entry =>
    (true,
      { store := (e.store.remove hf key).2,
        mem_manager := e.mem_manager.evict_lru_key key,
        current_memory := e.current_memory - (key.length + entry.value.length),
        max_memory := e.max_memory })

/-- `StorageEngine::evict_expired()`: snapshot the expired keys by walking
every bucket chain, then remove each from the table and the LRU.  Note the
source subtracts nothing from `current_memory` here. -/
def evict_expired (hf : List Char → Nat) (now : Int) (e : StorageEngine) :
    StorageEngine :=
  let buckets := (List.range e.store.get_capacity).map (fun i => e.store.table.getD i [])
  let keys_to_remove :=
    (buckets.flatten.filter
      (fun p => decide (p.2.ttl ≠ secondsMax ∧ now - p.2.last_accessed > p.2.ttl))).map
      Prod.fst
  keys_to_remove.foldl
    (fun acc k =>
      { acc with store := (acc.store.remove hf k).2,
                 mem_manager := acc.mem_manager.evict_lru_key k })
    e

/-- A freshly constructed `StorageEngine(max_memory)`: default-capacity-8
table, empty LRU, zero bytes. -/
def init (maxMem : Nat) : StorageEngine :=
  ⟨HashTable.empty 8, ⟨[]⟩, 0, maxMem⟩

end StorageEngine

/-- States reachable from a freshly constructed engine by any sequence of the
public operations plus the two internal passes named by the spec. -/
inductive Reachable (hf : List Char → Nat) : StorageEngine → Prop
  | init (maxMem : Nat) : Reachable hf (StorageEngine.init maxMem)
  | set (now : Int) (k v : List Char) (ttl : Int) {e : StorageEngine} :
      Reachable hf e → Reachable hf (StorageEngine.set hf now k v ttl e)
  | get (now : Int) (k : List Char) {e : StorageEngine} :
      Reachable hf e → Reachable hf (StorageEngine.get hf now k e).2
  | del (k : List Char) {e : StorageEngine} :
      Reachable hf e → Reachable hf (StorageEngine.del hf k e).2
  | enforce {e : StorageEngine} :
      Reachable hf e → Reachable hf (StorageEngine.enforce_memory_limits hf e)
  | evict (now : Int) {e : StorageEngine} :
      Reachable hf e → Reachable hf (StorageEngine.evict_expired hf now e)

/-- Sum of `len(key) + len(value)` over the live entries of the table. -/
def liveBytes (e : StorageEngine) : Nat :=
  (e.store.table.flatten.map (fun p => p.1.length + p.2.value.length)).sum

/-- A concrete hash function used for closed evaluations (the C++
`std::hash<std::string>` is implementation-defined; the embedding is
parametric in it). -/
def hf0 : List Char → Nat := fun l => l.length

/-- The state after `SET k v` with ttl 5 s at time 0 (engine built with
`max_memory = 100`): the entry is expired from time 6 onwards. -/
def c1state : StorageEngine :=
  StorageEngine.set hf0 0 ['k'] ['v'] 5 (StorageEngine.init 100)

/-- The state after `SET k v` with ttl 0 s at time 0 and a reaper pass
(`evict_expired`) at time 2. -/
def c2state : StorageEngine :=
  StorageEngine.evict_expired hf0 2
    (StorageEngine.set hf0 0 ['k'] ['v'] 0 (StorageEngine.init 100))

/-- The state after `SET "" "x"` then `SET "a" "b"` on an engine with
`max_memory = 2` (both with the no-expiry sentinel ttl). -/
def c5state : StorageEngine :=
  StorageEngine.set hf0 1 ['a'] ['b'] secondsMax
    (StorageEngine.set hf0 0 [] ['x'] secondsMax (StorageEngine.init 2))

/-- Hash-table states reachable from the default-capacity-8 constructor by
any sequence of `insert` and `remove` operations. -/
inductive HTReach {K V : Type} [DecidableEq K] (hf : K → Nat) : HashTable K V → Prop
  | init : HTReach hf (HashTable.empty 8)
  | insert (k : K) (v : V) {ht : HashTable K V} :
      HTReach hf ht → HTReach hf (ht.insert hf k v)
  | remove (k : K) {ht : HashTable K V} :
      HTReach hf ht → HTReach hf (ht.remove hf k).2

/-- A degenerate hash function (every key in bucket 0) for closed
hash-table evaluations. -/
def hfN : Nat → Nat := fun _ => 0

/-- The table after inserting the 12 distinct keys 0..11 into a fresh
default table. -/
def ht12 : HashTable Nat Unit :=
  (List.range 12).foldl (fun h i => h.insert hfN i ()) (HashTable.empty 8)

/-! ### RESP-2 codec (resp.cpp)

`RespValue` mirrors `RespProtocol::RespValue`: five types, bulk strings and
arrays with a null variant.  Integers are `Int` together with the `int64_t`
range condition in `validB`; `std::stoi` / `std::stoll` are modelled by
`stoiOpt` / `stollOpt` including their leading-whitespace/sign/trailing-junk
tolerance and their range failure.  The parser is fuel-indexed only so that
every definition stays kernel-computable; `data.length + 1` fuel always
suffices because each recursive `parse` call inside an array receives a
strictly shorter suffix. -/

/-- The CRLF terminator. -/
def CRLF : List Char := ['\r', '\n']

/-- Decimal digit character (used by `std::to_string`). -/
def digitChar : Nat → Char
  | 0 => '0' | 1 => '1' | 2 => '2' | 3 => '3' | 4 => '4'
  | 5 => '5' | 6 => '6' | 7 => '7' | 8 => '8' | _ => '9'

/-- Numeric value of a digit character (used by `strtol`-family parsing). -/
def digitVal (c : Char) : Nat := c.toNat - 48

/-- Value of a digit string, most significant first. -/
def valNat (ds : List Char) : Nat := ds.foldl (fun a c => a * 10 + digitVal c) 0

/-- Fuel-indexed decimal printing of a natural number; fuel `n + 1` always
suffices since `n / 10 < n` for `n ≥ 10`. -/
def natDigitsF : Nat → Nat → List Char
  | 0, _ => []
  | fuel + 1, n =>
    if n < 10 then [digitChar n] else natDigitsF fuel (n / 10) ++ [digitChar (n % 10)]

/-- `std::to_string` on a natural number. -/
def natDigits (n : Nat) : List Char := natDigitsF (n + 1) n

/-- `std::to_string` on an `int64_t` value. -/
def intDigits (n : Int) : List Char :=
  if n < 0 then '-' :: natDigits n.natAbs else natDigits n.toNat

/-- C-locale `isspace`, the characters `strtol` skips. -/
def isSpaceChar (c : Char) : Bool :=
  c = ' ' || c = '\t' || c = '\n' || c = '\x0b' || c = '\x0c' || c = '\r'

/-- `std::stoi`/`std::stoll` семантics: skip leading whitespace, one optional
sign, then a non-empty digit run (trailing junk ignored); fail when no digit
follows or the value leaves `[lo, hi]`. -/
def stoRange (lo hi : Int) (s : List Char) : Option Int :=
  let s1 := s.dropWhile isSpaceChar
  let neg : Bool := s1.head? = some '-'
  let s2 := if s1.head? = some '-' || s1.head? = some '+' then s1.tail else s1
  let ds := s2.takeWhile (fun c => c.isDigit)
  if ds.isEmpty then none
  else
    let v : Int := if neg then -(valNat ds : Int) else (valNat ds : Int)
    if lo ≤ v ∧ v ≤ hi then some v else none

/-- `std::stoi` (32-bit `int` range), as used for bulk/array length fields. -/
def stoiOpt : List Char → Option Int := stoRange (-2147483648) 2147483647

/-- `std::stoll` (64-bit range), as used for RESP integers. -/
def stollOpt : List Char → Option Int := stoRange (-9223372036854775808) 9223372036854775807

/-- Scan for the first `"\r\n"` pair, carrying the absolute index. -/
def findCRLFAux : List Char → Nat → Option Nat
  | [], _ => none
  | c :: l, i =>
    if c = '\r' && (l.head? = some '\n') then some i else findCRLFAux l (i + 1)

/-- `RespProtocol::findCRLF(data, start)` — also the behaviour of
`std::string::find("\r\n", start)` used by `Connection::process_commands`:
index of the first CRLF at position ≥ `start`, or none. -/
def findCRLF (l : List Char) (start : Nat) : Option Nat :=
  findCRLFAux (l.drop start) start

/-- Whether a byte sequence contains the CRLF pair. -/
def hasCRLF : List Char → Bool
  | [] => false
  | c :: l => (c = '\r' && (l.head? = some '\n')) || hasCRLF l

/-- `std::string::substr(pos, len)`. -/
def substr (s : List Char) (pos len : Nat) : List Char := (s.drop pos).take len

/-- `RespProtocol::RespValue`: type tag plus null flag, flattened into seven
constructors. -/
inductive RespValue : Type
  | simpleStr (s : List Char)
  | error (s : List Char)
  | integer (n : Int)
  | bulk (s : List Char)
  | nullBulk
  | array (elems : List RespValue)
  | nullArray

mutual

/-- Structural size of a RESP value, used as printing/validity fuel. -/
def rvSize : RespValue → Nat
  | .simpleStr _ => 1
  | .error _ => 1
  | .integer _ => 1
  | .bulk _ => 1
  | .nullBulk => 1
  | .array es => 1 + rvSizeList es
  | .nullArray => 1

/-- Structural size of a RESP value list. -/
def rvSizeList : List RespValue → Nat
  | [] => 1
  | v :: vs => rvSize v + rvSizeList vs

end

/-- Fuel-indexed `RespProtocol::encode`; any fuel ≥ `rvSize v` gives the real
encoding. -/
def encodeF : Nat → RespValue → List Char
  | 0, _ => []
  | fuel + 1, v =>
    match v with
    | .simpleStr s => '+' :: (s ++ CRLF)
    | .error s => '-' :: (s ++ CRLF)
    | .integer n => ':' :: (intDigits n ++ CRLF)
    | .bulk s => '$' :: (natDigits s.length ++ CRLF ++ s ++ CRLF)
    | .nullBulk => ['$', '-', '1', '\r', '\n']
    | .array es => '*' :: (natDigits es.length ++ CRLF ++ (es.map (encodeF fuel)).flatten)
    | .nullArray => ['*', '-', '1', '\r', '\n']

/-- `RespProtocol::encode`. -/
def encode (v : RespValue) : List Char := encodeF (rvSize v) v

/-- Fuel-indexed validity: simple strings and errors are CRLF-free (RESP-2
line types cannot carry their own terminator), integers fit `int64_t` (the
C++ type), bulk/array lengths fit `int` (`std::stoi` cannot return more). -/
def validF : Nat → RespValue → Bool
  | 0, _ => false
  | fuel + 1, v =>
    match v with
    | .simpleStr s => !(hasCRLF s)
    | .error s => !(hasCRLF s)
    | .integer n => decide (-9223372036854775808 ≤ n ∧ n ≤ 9223372036854775807)
    | .bulk s => decide (s.length ≤ 2147483647)
    | .nullBulk => true
    | .array es => decide (es.length ≤ 2147483647) && es.all (validF fuel)
    | .nullArray => true

/-- A representable-on-the-wire RESP-2 value. -/
def validB (v : RespValue) : Bool := validF (rvSize v) v

/-- Result of `RespProtocol::parse`: need-more-bytes (`std::nullopt`), a
value plus `bytes_consumed`, or a thrown parse error. -/
inductive ParseOut : Type
  | needMore
  | ok (v : RespValue) (consumed : Nat)
  | err

/-- The `parseArray` element loop, abstracted over the recursive parser:
`rem` is `data.substr(current_pos)`, `k` the absolute `current_pos`, `acc`
the elements parsed so far (reversed). -/
def parseElemsWith (rec : List Char → ParseOut) :
    Nat → List Char → Nat → List RespValue → ParseOut
  | 0, _, k, acc => .ok (.array acc.reverse) k
  | n + 1, rem, k, acc =>
    if rem.isEmpty then .needMore
    else
      match rec rem with
      | .needMore => .needMore
      | .err => .err
      | .ok v c => parseElemsWith rec n (rem.drop c) (k + c) (v :: acc)

/-- One step of `RespProtocol::parse`: dispatch on the leading byte, with the
recursive occurrence (array elements) abstracted as `rec`. -/
def parseCore (rec : List Char → ParseOut) (data : List Char) : ParseOut :=
  match data with
  | [] => .needMore
  | c :: _ =>
    if c = '+' then
      match findCRLF data 1 with
      | none => .needMore
      | some p => .ok (.simpleStr (substr data 1 (p - 1))) (p + 2)
    else if c = '-' then
      match findCRLF data 1 with
      | none => .needMore
      | some p => .ok (.error (substr data 1 (p - 1))) (p + 2)
    else if c = ':' then
      match findCRLF data 1 with
      | none => .needMore
      | some p =>
        match stollOpt (substr data 1 (p - 1)) with
        | none => .err
        | some n => .ok (.integer n) (p + 2)
    else if c = '$' then
      match findCRLF data 1 with
      | none => .needMore
      | some p =>
        match stoiOpt (substr data 1 (p - 1)) with
        | none => .err
        | some len =>
          if len = -1 then .ok .nullBulk (p + 2)
          else if len < 0 then .err
          else if data.length < p + 2 + len.toNat + 2 then .needMore
          else .ok (.bulk (substr data (p + 2) len.toNat)) (p + 2 + len.toNat + 2)
    else if c = '*' then
      match findCRLF data 1 with
      | none => .needMore
      | some p =>
        match stoiOpt (substr data 1 (p - 1)) with
        | none => .err
        | some len =>
          if len = -1 then .ok .nullArray (p + 2)
          else if len < 0 then .err
          else parseElemsWith rec len.toNat (data.drop (p + 2)) (p + 2) []
    else .err

/-- Fuel-indexed full parser. -/
def parseF : Nat → List Char → ParseOut
  | 0, _ => .needMore
  | fuel + 1, data => parseCore (parseF fuel) data

/-- `RespProtocol::parse(data, bytes_consumed)`. -/
def parse (data : List Char) : ParseOut := parseF (data.length + 1) data

/-- Result of the bulk-string element loop inside
`Connection::process_commands`: hard failure (`return false`), incomplete
input (`break`), or a complete argument vector with the cursor past it. -/
inductive ElemRes : Type
  | fail
  | incomplete
  | done (args : List (List Char)) (cur : Nat)
deriving DecidableEq

/-- The `for (int i = 0; i < array_size; i++)` element loop of
`Connection::process_commands`, reading bulk strings from absolute offset
`cur` of `buf`. -/
def elemsLoop (buf : List Char) : Nat → Nat → List (List Char) → ElemRes
  | 0, cur, acc => ElemRes.done acc.reverse cur
  | n + 1, cur, acc =>
    if (buf.drop cur).head? = some '$' then
      match findCRLF buf cur with
      | none => ElemRes.incomplete
      | some lenEnd =>
        match stoiOpt (substr buf (cur + 1) (lenEnd - cur - 1)) with
        | none => ElemRes.fail
        | some bulkLen =>
          if bulkLen < 0 then elemsLoop buf n (lenEnd + 2) ([] :: acc)
          else if buf.length < lenEnd + 2 + bulkLen.toNat + 2 then
            ElemRes.incomplete
          else
            elemsLoop buf n (lenEnd + 2 + bulkLen.toNat + 2)
              (substr buf (lenEnd + 2) bulkLen.toNat :: acc)
    else ElemRes.incomplete

/-- Fuel-indexed while-loop of `Connection::process_commands`: scan position
`pos`, dispatch complete commands through `exec` (the uppercased name plus the
remaining arguments), erase consumed bytes, skip one byte when it is not
`'*'`.  Returns (keep-connection flag, queued responses in order, remaining
buffer).  `buf.length + 1` fuel always suffices: every iteration either
advances `pos` or shrinks the buffer past `pos`. -/
def processAuxF (exec : List (List Char) → List Char) :
    Nat → List Char → Nat → List (List Char) →
      Bool × List (List Char) × List Char
  | 0, buf, _, acc => (true, acc.reverse, buf)
  | fuel + 1, buf, pos, acc =>
    if pos < buf.length then
      if (buf.drop pos).head? = some '*' then
        match findCRLF buf pos with
        | none => (true, acc.reverse, buf)
        | some endPos =>
          match stoiOpt (substr buf (pos + 1) (endPos - pos - 1)) with
          | none => (false, acc.reverse, buf)
          | some arraySize =>
            if arraySize ≤ 0 then (false, acc.reverse, buf)
            else
              match elemsLoop buf arraySize.toNat (endPos + 2) [] with
              | ElemRes.fail => (false, acc.reverse, buf)
              | ElemRes.incomplete => (true, acc.reverse, buf)
              | ElemRes.done args cur =>
                match args with
                | [] => processAuxF exec fuel (buf.drop cur) 0 acc
                | a0 :: rest =>
                  processAuxF exec fuel (buf.drop cur) 0
                    (exec (a0.map Char.toUpper :: rest) :: acc)
      else processAuxF exec fuel buf (pos + 1) acc
    else (true, acc.reverse, buf)

/-- `Connection::process_commands()` on a given input buffer, with command
dispatch (`server_->execute_command` plus `add_response`) abstracted as
`exec`. -/
def processCommandsRun (exec : List (List Char) → List Char)
    (buf : List Char) : Bool × List (List Char) × List Char :=
  processAuxF exec (buf.length + 1) buf 0 []

/-- A concrete executor for closed evaluations: echo the argument bytes. -/
def echoExec (args : List (List Char)) : List Char := args.flatten

/-- The characters of the literal `"EX"`. -/
def exChars : List Char := ['E', 'X']

/-- `"-ERR wrong number of arguments for 'set' command\r\n"`. -/
def setArityErr : List Char :=
  ['-', 'E', 'R', 'R', ' ', 'w', 'r', 'o', 'n', 'g', ' ', 'n', 'u', 'm',
   'b', 'e', 'r', ' ', 'o', 'f', ' ', 'a', 'r', 'g', 'u', 'm', 'e', 'n',
   't', 's', ' ', 'f', 'o', 'r', ' ', '\x27', 's', 'e', 't', '\x27', ' ',
   'c', 'o', 'm', 'm', 'a', 'n', 'd', '\r', '\n']

/-- `"-ERR invalid expire time in 'set' command\r\n"`. -/
def invalidExpireErr : List Char :=
  ['-', 'E', 'R', 'R', ' ', 'i', 'n', 'v', 'a', 'l', 'i', 'd', ' ', 'e',
   'x', 'p', 'i', 'r', 'e', ' ', 't', 'i', 'm', 'e', ' ', 'i', 'n', ' ',
   '\x27', 's', 'e', 't', '\x27', ' ', 'c', 'o', 'm', 'm', 'a', 'n', 'd',
   '\r', '\n']

/-- `"-ERR wrong number of arguments for 'get' command\r\n"`. -/
def getArityErr : List Char :=
  ['-', 'E', 'R', 'R', ' ', 'w', 'r', 'o', 'n', 'g', ' ', 'n', 'u', 'm',
   'b', 'e', 'r', ' ', 'o', 'f', ' ', 'a', 'r', 'g', 'u', 'm', 'e', 'n',
   't', 's', ' ', 'f', 'o', 'r', ' ', '\x27', 'g', 'e', 't', '\x27', ' ',
   'c', 'o', 'm', 'm', 'a', 'n', 'd', '\r', '\n']

/-- `"-ERR wrong number of arguments for 'del' command\r\n"`. -/
def delArityErr : List Char :=
  ['-', 'E', 'R', 'R', ' ', 'w', 'r', 'o', 'n', 'g', ' ', 'n', 'u', 'm',
   'b', 'e', 'r', ' ', 'o', 'f', ' ', 'a', 'r', 'g', 'u', 'm', 'e', 'n',
   't', 's', ' ', 'f', 'o', 'r', ' ', '\x27', 'd', 'e', 'l', '\x27', ' ',
   'c', 'o', 'm', 'm', 'a', 'n', 'd', '\r', '\n']

/-- `"+OK\r\n"`. -/
def okResp : List Char := ['+', 'O', 'K', '\r', '\n']

/-- `"$-1\r\n"`. -/
def nullBulkResp : List Char := ['$', '-', '1', '\r', '\n']

/-- The SET handler lambda registered in `Server::init` (client.cpp), over the
storage-engine model; `args` excludes the command name, `args[0]` is the key. -/
def setHandler (hf : List Char → Nat) (now : Int) (args : List (List Char))
    (e : StorageEngine) : List Char × StorageEngine :=
  if args.length < 2 then (setArityErr, e)
  else if 4 ≤ args.length ∧ args.getD 2 [] = exChars then
    match stoiOpt (args.getD 3 []) with
    | none => (invalidExpireErr, e)
    | some n =>
      (okResp, StorageEngine.set hf now (args.getD 0 []) (args.getD 1 []) n e)
  else
    (okResp,
      StorageEngine.set hf now (args.getD 0 []) (args.getD 1 []) secondsMax e)

/-- The GET handler lambda registered in `Server::init` (client.cpp). -/
def getHandler (hf : List Char → Nat) (now : Int) (args : List (List Char))
    (e : StorageEngine) : List Char × StorageEngine :=
  if args.length = 1 then
    match StorageEngine.get hf now (args.getD 0 []) e with
    | (value, e1) =>
      if value.isEmpty then (nullBulkResp, e1)
      else ('$' :: natDigits value.length ++ CRLF ++ value ++ CRLF, e1)
  else (getArityErr, e)

/-- The DEL handler lambda registered in `Server::init` (client.cpp). -/
def delHandler (hf : List Char → Nat) (args : List (List Char))
    (e : StorageEngine) : List Char × StorageEngine :=
  if args.length = 1 then
    match StorageEngine.del hf (args.getD 0 []) e with
    | (success, e1) => (':' :: (if success then ['1'] else ['0']) ++ CRLF, e1)
  else (delArityErr, e)

/-! ## Theorems -/

/-- The `getLastD` of a nonempty list is one of its elements (the key that
`evict_lru` pops really was in the LRU queue). -/
theorem mem_getLastD {α : Type} : ∀ (x : α) (xs : List α) (d : α),
    (x :: xs).getLastD d ∈ x :: xs := by
  intro x xs
  induction xs generalizing x with
  | nil => intro d; simp [List.getLastD]
  | cons y ys ih =>
    intro d
    simp only [List.getLastD]
    exact List.mem_cons_of_mem x (ih y x)

/-- Postcondition of the `enforce_memory_limits` loop body: when the fuel
covers the queue length, the loop stops under budget, or with an empty LRU
queue, or because the popped key was the empty string — which can only happen
if the empty string was in the LRU queue to begin with. -/
theorem enforceF_post (hf : List Char → Nat) :
    ∀ (fuel : Nat) (e : StorageEngine), e.mem_manager.lru_queue.length < fuel →
    (StorageEngine.enforceF hf fuel e).current_memory ≤
      (StorageEngine.enforceF hf fuel e).max_memory ∨
    (StorageEngine.enforceF hf fuel e).mem_manager.lru_queue = [] ∨
    [] ∈ e.mem_manager.lru_queue := by
  intro fuel
  induction fuel with
  | zero => intro e h; omega
  | succ n ih =>
    intro e h
    by_cases hc : e.current_memory ≤ e.max_memory
    · rw [show StorageEngine.enforceF hf (n + 1) e = e from by
        simp [StorageEngine.enforceF, hc]]
      exact Or.inl hc
    · rcases hl : e.mem_manager.lru_queue with _ | ⟨x, xs⟩
      · have he : e.mem_manager.evict_lru = ([], e.mem_manager) := by
          unfold MemoryManager.evict_lru
          rw [hl]
        rw [show StorageEngine.enforceF hf (n + 1) e = { e with mem_manager := e.mem_manager } from by
          simp [StorageEngine.enforceF, hc, he]]
        exact Or.inr (Or.inl hl)
      · have he : e.mem_manager.evict_lru =
            ((x :: xs).getLastD [], ⟨(x :: xs).dropLast⟩) := by
          unfold MemoryManager.evict_lru
          rw [hl]
        by_cases hk : (x :: xs).getLastD ([] : List Char) = []
        · exact Or.inr (Or.inr (hk ▸ mem_getLastD x xs []))
        · have hlen : (⟨(x :: xs).dropLast⟩ : MemoryManager).lru_queue.length < n := by
            rw [hl] at h
            simp only [List.length_dropLast, List.length_cons] at h ⊢
            omega
          have hmem : ∀ z, z ∈ (x :: xs).dropLast → z ∈ x :: xs := fun z hz =>
            (List.dropLast_sublist (x :: xs)).subset hz
          rcases hg : e.store.get hf ((x :: xs).getLastD []) with _ | entry
          · rw [show StorageEngine.enforceF hf (n + 1) e =
                StorageEngine.enforceF hf n { e with mem_manager := ⟨(x :: xs).dropLast⟩ } from by
              simp only [StorageEngine.enforceF, he, if_neg hc, if_neg hk, hg]]
            rcases ih { e with mem_manager := ⟨(x :: xs).dropLast⟩ } hlen with h1 | h2 | h3
            · exact Or.inl h1
            · exact Or.inr (Or.inl h2)
            · exact Or.inr (Or.inr (hmem [] h3))
          · rw [show StorageEngine.enforceF hf (n + 1) e =
                StorageEngine.enforceF hf n
                  { store := (e.store.remove hf ((x :: xs).getLastD [])).2,
                    mem_manager := ⟨(x :: xs).dropLast⟩,
                    current_memory := e.current_memory -
                      (((x :: xs).getLastD []).length + entry.value.length),
                    max_memory := e.max_memory } from by
              simp only [StorageEngine.enforceF, he, if_neg hc, if_neg hk, hg]]
            rcases ih
                { store := (e.store.remove hf ((x :: xs).getLastD [])).2,
                  mem_manager := ⟨(x :: xs).dropLast⟩,
                  current_memory := e.current_memory -
                    (((x :: xs).getLastD []).length + entry.value.length),
                  max_memory := e.max_memory } hlen with h1 | h2 | h3
            · exact Or.inl h1
            · exact Or.inr (Or.inl h2)
            · exact Or.inr (Or.inr (hmem [] h3))

/-- Postcondition of one `enforce_memory_limits` pass. -/
theorem enforce_post (hf : List Char → Nat) (e : StorageEngine) :
    (StorageEngine.enforce_memory_limits hf e).current_memory ≤
      (StorageEngine.enforce_memory_limits hf e).max_memory ∨
    (StorageEngine.enforce_memory_limits hf e).mem_manager.lru_queue = [] ∨
    [] ∈ e.mem_manager.lru_queue :=
  enforceF_post hf (e.mem_manager.lru_queue.length + 1) e (Nat.lt_succ_self _)

/-- C1 (status: code_bug) — evaluation of the source at a failing input.
The claim says a `get` on an entry that is expired at the time of the call
(`now - last_accessed > ttl`, ttl not the sentinel) returns not-found and has
no LRU effect.  The code refreshes `last_accessed` *before* the TTL
comparison, so with `SET k v` (ttl 5 s) at time 0, `get k` at time 10 finds
an entry with `5 ≠ sentinel` and `10 - 0 > 5` — expired per the claim — yet
returns the value `"v"` and moves `k` to the LRU front.  Spec §9 itself
records this as a source bug ("expired entries are effectively resurrected
on read"). -/
theorem c1_code_eval :
    Reachable hf0 c1state ∧
    c1state.store.get hf0 ['k'] = some ⟨['v'], 5, 0⟩ ∧
    (5 : Int) ≠ secondsMax ∧ ((10 : Int) - 0 > 5) ∧
    (StorageEngine.get hf0 10 ['k'] c1state).1 = ['v'] ∧
    (StorageEngine.get hf0 10 ['k'] c1state).2.mem_manager.lru_queue = [['k']] := by
  refine ⟨Reachable.set 0 ['k'] ['v'] 5 (Reachable.init 100), ?_, ?_, ?_, ?_, ?_⟩
  · decide
  · decide
  · decide
  · decide
  · decide

/-- C2 (status: code_bug) — evaluation of the source at a failing input.
After `SET k v` with ttl 0 at time 0 (max 100 bytes) and a reaper pass
(`evict_expired`) at time 2, the hash table holds no entries, yet
`current_memory` is still 2: `evict_expired` removes entries without
subtracting `len(key) + len(value)`, so the claimed accounting invariant
`current_bytes = Σ len(k)+len(v)` fails on this reachable state. -/
theorem c2_code_eval :
    Reachable hf0 c2state ∧
    c2state.store.table.flatten = [] ∧
    liveBytes c2state = 0 ∧
    c2state.current_memory = 2 ∧
    c2state.current_memory ≠ liveBytes c2state := by
  refine ⟨Reachable.evict 2 (Reachable.set 0 ['k'] ['v'] 0 (Reachable.init 100)),
    ?_, ?_, ?_, ?_⟩
  · decide
  · decide
  · decide
  · decide

/-- C5 counterexample (status: corrected).  Claim: after any `set` completes,
`current_bytes ≤ max_bytes` or the LRU list is empty — "including the
empty-string key".  With `max_memory = 2`, after `SET "" "x"` then
`SET "a" "b"`, the engine is 3 bytes over a 2-byte budget with a non-empty
LRU queue: the eviction loop popped the empty-string key `""` from the LRU
back and mistook it for the empty-queue sentinel of `evict_lru`, stopping
early.  The state is reachable and is the immediate result of a `set`. -/
theorem c5_counterexample :
    Reachable hf0 c5state ∧
    c5state.current_memory = 3 ∧
    c5state.max_memory = 2 ∧
    ¬ (c5state.current_memory ≤ c5state.max_memory) ∧
    c5state.mem_manager.lru_queue = [['a']] ∧
    c5state.mem_manager.lru_queue ≠ [] := by
  refine ⟨Reachable.set 1 ['a'] ['b'] secondsMax
    (Reachable.set 0 [] ['x'] secondsMax (Reachable.init 2)), ?_, ?_, ?_, ?_, ?_⟩
  · decide
  · decide
  · decide
  · decide
  · decide

/-- C5 amended (status: corrected).  Immediately after a `set` or an
`enforce_memory_limits` pass: the engine is under budget, or the LRU queue is
empty, or the loop stopped early because the empty string occurred as a key —
for `set`, because the key just set was `""` or `""` was already in the LRU
queue.  Immediately after `del`, `current_memory` never increases (so `del`
preserves "under budget or LRU empty" whenever the budget part held).  This
is the original claim weakened exactly by the empty-string-key escape shown
in the counterexample. -/
theorem c5_amended (hf : List Char → Nat) (now : Int) (k v : List Char) (ttl : Int)
    (e : StorageEngine) :
    ((StorageEngine.set hf now k v ttl e).current_memory ≤
        (StorageEngine.set hf now k v ttl e).max_memory ∨
      (StorageEngine.set hf now k v ttl e).mem_manager.lru_queue = [] ∨
      k = [] ∨ [] ∈ e.mem_manager.lru_queue) ∧
    ((StorageEngine.enforce_memory_limits hf e).current_memory ≤
        (StorageEngine.enforce_memory_limits hf e).max_memory ∨
      (StorageEngine.enforce_memory_limits hf e).mem_manager.lru_queue = [] ∨
      [] ∈ e.mem_manager.lru_queue) ∧
    (StorageEngine.del hf k e).2.current_memory ≤ e.current_memory := by
  refine ⟨?_, enforce_post hf e, ?_⟩
  · unfold StorageEngine.set
    rcases hg : e.store.get hf k with _ | old
    · simp only [hg]
      rcases enforce_post hf
          { store := e.store.insert hf k ⟨v, ttl, now⟩,
            mem_manager := e.mem_manager.update_lru k,
            current_memory := e.current_memory + k.length + v.length,
            max_memory := e.max_memory } with h1 | h2 | h3
      · exact Or.inl h1
      · exact Or.inr (Or.inl h2)
      · rcases List.mem_cons.mp h3 with h4 | h5
        · exact Or.inr (Or.inr (Or.inl h4.symm))
        · exact Or.inr (Or.inr (Or.inr (List.mem_of_mem_filter h5)))
    · simp only [hg]
      rcases enforce_post hf
          { store := e.store.insert hf k ⟨v, ttl, now⟩,
            mem_manager := e.mem_manager.update_lru k,
            current_memory := e.current_memory - (k.length + old.value.length)
              + k.length + v.length,
            max_memory := e.max_memory } with h1 | h2 | h3
      · exact Or.inl h1
      · exact Or.inr (Or.inl h2)
      · rcases List.mem_cons.mp h3 with h4 | h5
        · exact Or.inr (Or.inr (Or.inl h4.symm))
        · exact Or.inr (Or.inr (Or.inr (List.mem_of_mem_filter h5)))
  · unfold StorageEngine.del
    rcases hg : e.store.get hf k with _ | entry
    · exact Nat.le_refl _
    · exact Nat.sub_le _ _

/-- `insert` doubles the capacity exactly when the pre-insert load factor
reaches the 0.7 threshold, and otherwise leaves it unchanged. -/
theorem insert_capacity {K V : Type} [DecidableEq K] (hf : K → Nat) (k : K) (v : V)
    (ht : HashTable K V) :
    (ht.insert hf k v).capacity =
      if 7 * ht.capacity ≤ 10 * ht.size then 2 * ht.capacity else ht.capacity := by
  unfold HashTable.insert
  dsimp only
  split <;> split <;> rfl

/-- `insert` grows the size by at most one (update in place or prepend). -/
theorem insert_size_or {K V : Type} [DecidableEq K] (hf : K → Nat) (k : K) (v : V)
    (ht : HashTable K V) :
    (ht.insert hf k v).size = ht.size ∨ (ht.insert hf k v).size = ht.size + 1 := by
  unfold HashTable.insert
  dsimp only
  split <;> split
  · exact Or.inl rfl
  · exact Or.inr rfl
  · exact Or.inl rfl
  · exact Or.inr rfl

/-- `remove` either leaves the table unchanged (key absent) or decrements the
size and halves the capacity exactly when the post-remove load factor falls
below the 0.2 threshold with capacity above 8. -/
theorem remove_cases {K V : Type} [DecidableEq K] (hf : K → Nat) (k : K)
    (ht : HashTable K V) :
    (ht.remove hf k).2 = ht ∨
    ((ht.remove hf k).2.size = ht.size - 1 ∧
      (ht.remove hf k).2.capacity =
        if 8 < ht.capacity ∧ 5 * (ht.size - 1) < ht.capacity then ht.capacity / 2
        else ht.capacity) := by
  unfold HashTable.remove
  dsimp only
  split
  · exact Or.inl rfl
  · refine Or.inr ⟨?_, ?_⟩
    · split <;> rfl
    · split <;> rfl


/-- The inductive size/capacity invariant of reachable hash tables: the
capacity is `8·2^m`; at capacity 8 the size is at most 6; above capacity 8
the load factor is at least 0.2 (`cap ≤ 5·size`) and at most `0.7 + 1/cap`
(`10·size ≤ 7·cap + 10`). -/
theorem htreach_inv {K V : Type} [DecidableEq K] (hf : K → Nat) {ht : HashTable K V}
    (h : HTReach hf ht) :
    (∃ m, ht.capacity = 8 * 2 ^ m) ∧
    (ht.capacity = 8 → ht.size ≤ 6) ∧
    (8 < ht.capacity → ht.capacity ≤ 5 * ht.size ∧ 10 * ht.size ≤ 7 * ht.capacity + 10) := by
  induction h with
  | init =>
    refine ⟨⟨0, rfl⟩, fun _ => ?_, fun h8 => absurd h8 ?_⟩
    · simp [HashTable.empty]
    · simp [HashTable.empty]
  | @insert k v ht hre ih =>
    obtain ⟨⟨m, hm⟩, h8, hgt⟩ := ih
    have hc := insert_capacity hf k v ht
    have hsor := insert_size_or hf k v ht
    have hcap : ht.capacity = 8 ∨ 16 ≤ ht.capacity := by
      rcases m with _ | m'
      · left; rw [hm]; rfl
      · right
        rw [hm, pow_succ]
        have h1 : 1 ≤ 2 ^ m' := Nat.one_le_two_pow
        nlinarith
    refine ⟨?_, ?_, ?_⟩
    · by_cases hcond : 7 * ht.capacity ≤ 10 * ht.size
      · refine ⟨m + 1, ?_⟩
        rw [hc, if_pos hcond, hm, pow_succ]
        ring
      · exact ⟨m, by rw [hc, if_neg hcond, hm]⟩
    · intro hnew8
      by_cases hcond : 7 * ht.capacity ≤ 10 * ht.size <;>
        rcases hsor with hs | hs <;>
        rcases hcap with hc8 | hc16 <;>
        [skip; skip; skip; skip; skip; skip; skip; skip] <;>
        first
        | (rw [if_pos hcond] at hc
           have hb := h8
           have hg := hgt
           omega)
        | (rw [if_neg hcond] at hc
           have hb := h8
           have hg := hgt
           omega)
    · intro hnewgt
      by_cases hcond : 7 * ht.capacity ≤ 10 * ht.size <;>
        rcases hsor with hs | hs <;>
        rcases hcap with hc8 | hc16 <;>
        [skip; skip; skip; skip; skip; skip; skip; skip] <;>
        first
        | (rw [if_pos hcond] at hc
           have hb := if hx : ht.capacity = 8 then Or.inl (h8 hx) else Or.inr hx
           have hg := hgt
           omega)
        | (rw [if_neg hcond] at hc
           have hb := if hx : ht.capacity = 8 then Or.inl (h8 hx) else Or.inr hx
           have hg := hgt
           omega)
  | @remove k ht hre ih =>
    obtain ⟨⟨m, hm⟩, h8, hgt⟩ := ih
    rcases remove_cases hf k ht with heq | ⟨hs, hc⟩
    · rw [heq]
      exact ⟨⟨m, hm⟩, h8, hgt⟩
    · have hcap : ht.capacity = 8 ∨ (16 ≤ ht.capacity ∧
          ht.capacity / 2 = 8 * 2 ^ (m - 1) ∧ ht.capacity % 2 = 0) := by
        rcases m with _ | m'
        · left; rw [hm]; rfl
        · right
          rw [hm, pow_succ]
          have h1 : 1 ≤ 2 ^ m' := Nat.one_le_two_pow
          refine ⟨by nlinarith, ?_, by omega⟩
          simp only [Nat.add_sub_cancel]
          omega
      refine ⟨?_, ?_, ?_⟩
      · by_cases hcond : 8 < ht.capacity ∧ 5 * (ht.size - 1) < ht.capacity
        · rw [if_pos hcond] at hc
          rcases hcap with hc8 | ⟨h16, hdiv, _⟩
          · omega
          · exact ⟨m - 1, by rw [hc, hdiv]⟩
        · rw [if_neg hcond] at hc
          exact ⟨m, by rw [hc, hm]⟩
      · intro hnew8
        by_cases hcond : 8 < ht.capacity ∧ 5 * (ht.size - 1) < ht.capacity <;>
          [rw [if_pos hcond] at hc; rw [if_neg hcond] at hc] <;>
          rcases hcap with hc8 | ⟨h16, hdiv, hmod⟩ <;>
          (try have hb := h8) <;>
          (try have hg := if hx : 8 < ht.capacity then Or.inl (hgt hx) else Or.inr hx) <;>
          omega
      · intro hnewgt
        by_cases hcond : 8 < ht.capacity ∧ 5 * (ht.size - 1) < ht.capacity <;>
          [rw [if_pos hcond] at hc; rw [if_neg hcond] at hc] <;>
          rcases hcap with hc8 | ⟨h16, hdiv, hmod⟩ <;>
          (try have hb := h8) <;>
          (try have hg := if hx : 8 < ht.capacity then Or.inl (hgt hx) else Or.inr hx) <;>
          omega

/-- A left fold of inserts preserves hash-table reachability. -/
theorem htreach_foldl (l : List Nat) (h : HashTable Nat Unit) (hh : HTReach hfN h) :
    HTReach hfN (l.foldl (fun acc i => acc.insert hfN i ()) h) := by
  induction l generalizing h with
  | nil => exact hh
  | cons a as ih => exact ih _ (HTReach.insert a () hh)

/-- C6 counterexample (status: corrected).  Claim: the load factor stays in
[0.2, 0.7] after every operation, except transiently at capacity 8.  After
inserting 12 distinct keys into a fresh table the capacity is 16 (not the
exempted 8) and the size is 12, i.e. load factor 0.75 > 0.7: the grow check
runs *before* the insert, so a table at size 11/16 accepts a 12th key without
growing. -/
theorem c6_counterexample :
    HTReach hfN ht12 ∧ ht12.capacity = 16 ∧ ht12.size = 12 ∧
    ¬ (10 * ht12.size ≤ 7 * ht12.capacity) ∧ ht12.capacity ≠ 8 := by
  refine ⟨htreach_foldl _ _ HTReach.init, by decide, by decide, by decide, by decide⟩

/-- C6 amended (status: corrected).  In every reachable state: at capacity 8
the size is at most 6 (load factor at most 0.75); at larger capacities the
load factor lies in `[0.2, 0.7 + 1/capacity]`, i.e. `capacity ≤ 5·size` and
`10·size ≤ 7·capacity + 10`.  This is the original claim with the upper
bound relaxed from `0.7` to `0.7 + 1/capacity`, as the counterexample
forces. -/
theorem c6_amended {K V : Type} [DecidableEq K] (hf : K → Nat) (ht : HashTable K V)
    (h : HTReach hf ht) :
    (ht.capacity = 8 → ht.size ≤ 6) ∧
    (8 < ht.capacity → ht.capacity ≤ 5 * ht.size ∧ 10 * ht.size ≤ 7 * ht.capacity + 10) :=
  ⟨(htreach_inv hf h).2.1, (htreach_inv hf h).2.2⟩

/-! ### Decimal printing and `strtol`-family lemmas -/

theorem digitVal_digitChar {d : Nat} (h : d < 10) : digitVal (digitChar d) = d := by
  interval_cases d <;> rfl

theorem isDigit_digitChar {d : Nat} (h : d < 10) : (digitChar d).isDigit = true := by
  interval_cases d <;> rfl

theorem isDigit_not_space {c : Char} (h : c.isDigit = true) : isSpaceChar c = false := by
  by_cases h1 : c = ' '
  · exact absurd h (h1 ▸ by decide)
  by_cases h2 : c = '\t'
  · exact absurd h (h2 ▸ by decide)
  by_cases h3 : c = '\n'
  · exact absurd h (h3 ▸ by decide)
  by_cases h4 : c = '\x0b'
  · exact absurd h (h4 ▸ by decide)
  by_cases h5 : c = '\x0c'
  · exact absurd h (h5 ▸ by decide)
  by_cases h6 : c = '\r'
  · exact absurd h (h6 ▸ by decide)
  simp [isSpaceChar, h1, h2, h3, h4, h5, h6]

theorem isDigit_ne_dash {c : Char} (h : c.isDigit = true) : ¬ c = '-' :=
  fun he => absurd h (he ▸ by decide)

theorem isDigit_ne_plus {c : Char} (h : c.isDigit = true) : ¬ c = '+' :=
  fun he => absurd h (he ▸ by decide)

theorem isDigit_ne_cr {c : Char} (h : c.isDigit = true) : ¬ c = '\r' :=
  fun he => absurd h (he ▸ by decide)

theorem isDigit_ne_lf {c : Char} (h : c.isDigit = true) : ¬ c = '\n' :=
  fun he => absurd h (he ▸ by decide)

theorem natDigitsF_irrel : ∀ (fuel n : Nat), n < fuel → natDigitsF fuel n = natDigits n := by
  intro fuel
  induction fuel using Nat.strong_induction_on with
  | _ fuel ih =>
    rcases fuel with _ | f
    · intro n hn; omega
    · intro n hn
      simp only [natDigits, natDigitsF]
      by_cases h10 : n < 10
      · simp [h10]
      · simp only [if_neg h10]
        congr 1
        rw [ih f (by omega) (n / 10) (by omega), ih n (by omega) (n / 10) (by omega)]

theorem natDigits_eq (n : Nat) :
    natDigits n =
      if n < 10 then [digitChar n] else natDigits (n / 10) ++ [digitChar (n % 10)] := by
  conv_lhs => rw [natDigits]
  rw [show natDigitsF (n + 1) n =
      if n < 10 then [digitChar n] else natDigitsF n (n / 10) ++ [digitChar (n % 10)] from rfl]
  by_cases h10 : n < 10
  · rw [if_pos h10, if_pos h10]
  · rw [if_neg h10, if_neg h10, natDigitsF_irrel n (n / 10) (by omega)]

theorem natDigits_ne_nil (n : Nat) : natDigits n ≠ [] := by
  rw [natDigits_eq]
  by_cases h10 : n < 10
  · simp [h10]
  · simp [h10]

theorem natDigits_all_digit : ∀ (n : Nat) (c : Char), c ∈ natDigits n → c.isDigit = true := by
  intro n
  induction n using Nat.strong_induction_on with
  | _ n ih =>
    intro c hc
    rw [natDigits_eq] at hc
    by_cases h10 : n < 10
    · rw [if_pos h10] at hc
      rcases List.mem_singleton.mp hc with rfl
      exact isDigit_digitChar h10
    · rw [if_neg h10] at hc
      rcases List.mem_append.mp hc with h1 | h2
      · exact ih (n / 10) (by omega) c h1
      · rcases List.mem_singleton.mp h2 with rfl
        exact isDigit_digitChar (by omega)

theorem valNat_append_digit (l : List Char) (d : Char) :
    valNat (l ++ [d]) = (valNat l) * 10 + digitVal d := by
  unfold valNat
  rw [List.foldl_append]
  rfl

theorem valNat_natDigits : ∀ n : Nat, valNat (natDigits n) = n := by
  intro n
  induction n using Nat.strong_induction_on with
  | _ n ih =>
    rw [natDigits_eq]
    by_cases h10 : n < 10
    · rw [if_pos h10]
      simp [valNat, digitVal_digitChar h10]
    · rw [if_neg h10, valNat_append_digit, ih (n / 10) (by omega),
        digitVal_digitChar (show n % 10 < 10 by omega)]
      omega

theorem takeWhile_all {p : Char → Bool} :
    ∀ l : List Char, (∀ c ∈ l, p c = true) → l.takeWhile p = l := by
  intro l
  induction l with
  | nil => intro _; rfl
  | cons c cs ih =>
    intro h
    rw [List.takeWhile_cons, if_pos (h c (List.mem_cons_self c cs))]
    rw [ih (fun x hx => h x (List.mem_cons_of_mem c hx))]

theorem stoRange_natDigits (lo hi : Int) (n : Nat) (hlo : lo ≤ 0) (hhi : (n : Int) ≤ hi) :
    stoRange lo hi (natDigits n) = some (n : Int) := by
  rcases h : natDigits n with _ | ⟨d, rest⟩
  · exact absurd h (natDigits_ne_nil n)
  have hdig : d.isDigit = true := natDigits_all_digit n d (h ▸ List.mem_cons_self d rest)
  have hdash := isDigit_ne_dash hdig
  have hplus := isDigit_ne_plus hdig
  have hspace := isDigit_not_space hdig
  have halldig : ∀ c ∈ d :: rest, c.isDigit = true := fun c hc =>
    natDigits_all_digit n c (h ▸ hc)
  have hval : valNat (d :: rest) = n := h ▸ valNat_natDigits n
  simp [stoRange, List.dropWhile_cons, hspace, hdash, hplus,
    takeWhile_all _ halldig, hval, hhi]
  omega

theorem stoRange_intDigits (lo hi : Int) (n : Int) (hlo : lo ≤ n) (hhi : n ≤ hi)
    (hlo0 : lo ≤ 0) (hhi0 : 0 ≤ hi) :
    stoRange lo hi (intDigits n) = some n := by
  by_cases hneg : n < 0
  · unfold intDigits
    rw [if_pos hneg]
    rcases h : natDigits n.natAbs with _ | ⟨d, rest⟩
    · exact absurd h (natDigits_ne_nil n.natAbs)
    have halldig : ∀ c ∈ d :: rest, c.isDigit = true := fun c hc =>
      natDigits_all_digit n.natAbs c (h ▸ hc)
    have hval : valNat (d :: rest) = n.natAbs := h ▸ valNat_natDigits n.natAbs
    have hspace : isSpaceChar '-' = false := by decide
    simp [stoRange, h, List.dropWhile_cons, hspace, takeWhile_all _ halldig, hval]
    rw [abs_of_neg hneg]
    refine ⟨⟨?_, ?_⟩, ?_⟩ <;> omega
  · unfold intDigits
    rw [if_neg hneg]
    rw [stoRange_natDigits lo hi n.toNat hlo0 (by omega)]
    congr 1
    omega

theorem stoiOpt_natDigits (n : Nat) (h : (n : Int) ≤ 2147483647) :
    stoiOpt (natDigits n) = some (n : Int) :=
  stoRange_natDigits _ _ n (by norm_num) h

theorem stollOpt_intDigits (n : Int) (h1 : -9223372036854775808 ≤ n)
    (h2 : n ≤ 9223372036854775807) :
    stollOpt (intDigits n) = some n :=
  stoRange_intDigits _ _ n h1 h2 (by norm_num) (by norm_num)

/-! ### Unfolding equations for `encode` and `validB` -/

theorem all_congr_mem {α : Type} {p q : α → Bool} :
    ∀ (l : List α), (∀ x ∈ l, p x = q x) → l.all p = l.all q := by
  intro l
  induction l with
  | nil => intro _; rfl
  | cons a as ih =>
    intro h
    simp only [List.all_cons, h a (List.mem_cons_self a as),
      ih (fun x hx => h x (List.mem_cons_of_mem a hx))]

theorem rvSize_pos (v : RespValue) : 0 < rvSize v := by
  cases v <;> simp [rvSize]

theorem rvSize_le_rvSizeList {x : RespValue} :
    ∀ {es : List RespValue}, x ∈ es → rvSize x ≤ rvSizeList es := by
  intro es h
  induction es with
  | nil => cases h
  | cons v vs ih =>
    rcases List.mem_cons.mp h with rfl | h2
    · simp only [rvSizeList]
      omega
    · have := ih h2
      simp only [rvSizeList]
      omega

theorem rvSize_array_eq (es : List RespValue) :
    rvSize (.array es) = 1 + rvSizeList es := by
  simp [rvSize]

theorem encodeF_irrel :
    ∀ (fuel : Nat) (v : RespValue), rvSize v ≤ fuel → encodeF fuel v = encode v := by
  intro fuel
  induction fuel using Nat.strong_induction_on with
  | _ fuel ih =>
    intro v hv
    have hpos := rvSize_pos v
    rcases hfu : fuel with _ | f
    · omega
    rcases hs : rvSize v with _ | s
    · omega
    unfold encode
    rw [hs]
    cases v with
    | array es =>
      have hsl : rvSizeList es = s := by
        have h1 := rvSize_array_eq es
        omega
      rw [show encodeF (f + 1) (.array es) =
          '*' :: (natDigits es.length ++ CRLF ++ (es.map (encodeF f)).flatten) from rfl]
      rw [show encodeF (s + 1) (.array es) =
          '*' :: (natDigits es.length ++ CRLF ++ (es.map (encodeF s)).flatten) from rfl]
      have harr := rvSize_array_eq es
      have hmap : es.map (encodeF f) = es.map (encodeF s) := by
        apply List.map_congr_left
        intro x hx
        have hle : rvSize x ≤ s := hsl ▸ rvSize_le_rvSizeList hx
        rw [ih f (by omega) x (by omega), ih s (by omega) x (by omega)]
      rw [hmap]
    | simpleStr ss => rfl
    | error ss => rfl
    | integer n => rfl
    | bulk ss => rfl
    | nullBulk => rfl
    | nullArray => rfl

theorem encode_simpleStr (s : List Char) :
    encode (.simpleStr s) = '+' :: (s ++ CRLF) := by
  unfold encode
  rw [show rvSize (.simpleStr s) = 1 from by simp [rvSize]]
  rfl

theorem encode_error (s : List Char) :
    encode (.error s) = '-' :: (s ++ CRLF) := by
  unfold encode
  rw [show rvSize (.error s) = 1 from by simp [rvSize]]
  rfl

theorem encode_integer (n : Int) :
    encode (.integer n) = ':' :: (intDigits n ++ CRLF) := by
  unfold encode
  rw [show rvSize (.integer n) = 1 from by simp [rvSize]]
  rfl

theorem encode_bulk (s : List Char) :
    encode (.bulk s) = '$' :: (natDigits s.length ++ CRLF ++ s ++ CRLF) := by
  unfold encode
  rw [show rvSize (.bulk s) = 1 from by simp [rvSize]]
  rfl

theorem encode_nullBulk : encode .nullBulk = ['$', '-', '1', '\r', '\n'] := by
  unfold encode
  rw [show rvSize .nullBulk = 1 from by simp [rvSize]]
  rfl

theorem encode_nullArray : encode .nullArray = ['*', '-', '1', '\r', '\n'] := by
  unfold encode
  rw [show rvSize .nullArray = 1 from by simp [rvSize]]
  rfl

theorem encode_array (es : List RespValue) :
    encode (.array es) =
      '*' :: (natDigits es.length ++ CRLF ++ (es.map encode).flatten) := by
  unfold encode
  rw [show rvSize (.array es) = rvSizeList es + 1 from by rw [rvSize_array_eq]; omega]
  rw [show encodeF (rvSizeList es + 1) (.array es) =
      '*' :: (natDigits es.length ++ CRLF ++ (es.map (encodeF (rvSizeList es))).flatten)
      from rfl]
  have hmap : es.map (encodeF (rvSizeList es)) = es.map encode := by
    apply List.map_congr_left
    intro x hx
    exact encodeF_irrel (rvSizeList es) x (rvSize_le_rvSizeList hx)
  rw [hmap]
  rfl

theorem validF_irrel :
    ∀ (fuel : Nat) (v : RespValue), rvSize v ≤ fuel → validF fuel v = validB v := by
  intro fuel
  induction fuel using Nat.strong_induction_on with
  | _ fuel ih =>
    intro v hv
    have hpos := rvSize_pos v
    rcases hfu : fuel with _ | f
    · omega
    rcases hs : rvSize v with _ | s
    · omega
    unfold validB
    rw [hs]
    cases v with
    | array es =>
      have hsl : rvSizeList es = s := by
        have h1 := rvSize_array_eq es
        omega
      rw [show validF (f + 1) (.array es) =
          (decide (es.length ≤ 2147483647) && es.all (validF f)) from rfl]
      rw [show validF (s + 1) (.array es) =
          (decide (es.length ≤ 2147483647) && es.all (validF s)) from rfl]
      have hall : es.all (validF f) = es.all (validF s) := by
        apply all_congr_mem
        intro x hx
        have hle : rvSize x ≤ s := hsl ▸ rvSize_le_rvSizeList hx
        rw [ih f (by omega) x (by omega), ih s (by omega) x (by omega)]
      rw [hall]
    | simpleStr ss => rfl
    | error ss => rfl
    | integer n => rfl
    | bulk ss => rfl
    | nullBulk => rfl
    | nullArray => rfl

theorem validB_simpleStr (s : List Char) :
    validB (.simpleStr s) = !(hasCRLF s) := by
  unfold validB
  rw [show rvSize (.simpleStr s) = 1 from by simp [rvSize]]
  rfl

theorem validB_error (s : List Char) :
    validB (.error s) = !(hasCRLF s) := by
  unfold validB
  rw [show rvSize (.error s) = 1 from by simp [rvSize]]
  rfl

theorem validB_integer (n : Int) :
    validB (.integer n) =
      decide (-9223372036854775808 ≤ n ∧ n ≤ 9223372036854775807) := by
  unfold validB
  rw [show rvSize (.integer n) = 1 from by simp [rvSize]]
  rfl

theorem validB_bulk (s : List Char) :
    validB (.bulk s) = decide (s.length ≤ 2147483647) := by
  unfold validB
  rw [show rvSize (.bulk s) = 1 from by simp [rvSize]]
  rfl

theorem validB_array (es : List RespValue) :
    validB (.array es) = (decide (es.length ≤ 2147483647) && es.all validB) := by
  unfold validB
  rw [show rvSize (.array es) = rvSizeList es + 1 from by rw [rvSize_array_eq]; omega]
  rw [show validF (rvSizeList es + 1) (.array es) =
      (decide (es.length ≤ 2147483647) && es.all (validF (rvSizeList es))) from rfl]
  have hall : es.all (validF (rvSizeList es)) = es.all validB := by
    apply all_congr_mem
    intro x hx
    exact validF_irrel (rvSizeList es) x (rvSize_le_rvSizeList hx)
  rw [hall]
  rfl

theorem encode_ne_nil (v : RespValue) : encode v ≠ [] := by
  cases v <;>
    simp [encode_simpleStr, encode_error, encode_integer, encode_bulk,
      encode_nullBulk, encode_nullArray, encode_array]

/-! ### CRLF scanning lemmas -/

theorem hasCRLF_take :
    ∀ (l : List Char) (j : Nat), hasCRLF l = false → hasCRLF (l.take j) = false := by
  intro l
  induction l with
  | nil => intro j _; simp [hasCRLF]
  | cons c cs ih =>
    intro j h
    simp only [hasCRLF, Bool.or_eq_false_iff] at h
    obtain ⟨h1, h2⟩ := h
    cases j with
    | zero => simp [hasCRLF]
    | succ j =>
      simp only [List.take_succ_cons, hasCRLF, Bool.or_eq_false_iff]
      refine ⟨?_, ih j h2⟩
      rcases cs with _ | ⟨d, ds⟩
      · simp
      · cases j with
        | zero => simp
        | succ j2 => simpa using h1

theorem hasCRLF_append_cr :
    ∀ (l : List Char), hasCRLF l = false → hasCRLF (l ++ ['\r']) = false := by
  intro l
  induction l with
  | nil => intro _; simp [hasCRLF]
  | cons c cs ih =>
    intro h
    simp only [hasCRLF, Bool.or_eq_false_iff] at h
    obtain ⟨h1, h2⟩ := h
    simp only [List.cons_append, hasCRLF, Bool.or_eq_false_iff]
    refine ⟨?_, ih h2⟩
    rcases cs with _ | ⟨d, ds⟩
    · simp
    · simpa using h1

theorem findCRLFAux_none :
    ∀ (l : List Char) (i : Nat), hasCRLF l = false → findCRLFAux l i = none := by
  intro l
  induction l with
  | nil => intro i _; rfl
  | cons c cs ih =>
    intro i h
    simp only [hasCRLF, Bool.or_eq_false_iff] at h
    obtain ⟨h1, h2⟩ := h
    simp only [findCRLFAux, h1, Bool.false_eq_true, if_false]
    exact ih (i + 1) h2

theorem findCRLFAux_append :
    ∀ (xs rest : List Char) (i : Nat), hasCRLF xs = false →
      findCRLFAux (xs ++ '\r' :: '\n' :: rest) i = some (i + xs.length) := by
  intro xs
  induction xs with
  | nil =>
    intro rest i _
    simp [findCRLFAux]
  | cons c cs ih =>
    intro rest i h
    simp only [hasCRLF, Bool.or_eq_false_iff] at h
    obtain ⟨h1, h2⟩ := h
    have hcond : (decide (c = '\r') && decide ((cs ++ '\r' :: '\n' :: rest).head? = some '\n'))
        = false := by
      rcases cs with _ | ⟨d, ds⟩
      · simp
      · simpa using h1
    rw [List.cons_append]
    rw [show findCRLFAux (c :: (cs ++ '\r' :: '\n' :: rest)) i =
        if (decide (c = '\r') && decide ((cs ++ '\r' :: '\n' :: rest).head? = some '\n')) = true
        then some i else findCRLFAux (cs ++ '\r' :: '\n' :: rest) (i + 1) from rfl]
    rw [hcond]
    simp only [Bool.false_eq_true, if_false]
    rw [ih rest (i + 1) h2]
    simp only [List.length_cons, Option.some.injEq]
    omega

/-! ### Parser unfolding machinery: `parse` satisfies the one-step equation
`parse data = parseCore parse data`, obtained from fuel irrelevance. -/

theorem parseElemsWith_congr {p q : List Char → ParseOut} :
    ∀ (n : Nat) (rem : List Char) (k : Nat) (acc : List RespValue),
      (∀ r : List Char, r.length ≤ rem.length → p r = q r) →
      parseElemsWith p n rem k acc = parseElemsWith q n rem k acc := by
  intro n
  induction n with
  | zero => intro rem k acc _; rfl
  | succ m ih =>
    intro rem k acc h
    simp only [parseElemsWith]
    cases hre : rem.isEmpty
    · simp only [Bool.false_eq_true, if_false]
      rw [h rem (Nat.le_refl _)]
      cases hq : q rem with
      | needMore => rfl
      | err => rfl
      | ok v c =>
        apply ih
        intro r hr
        apply h
        have hdrop : (rem.drop c).length = rem.length - c := List.length_drop c rem
        omega
    · simp

theorem parseCore_congr {p q : List Char → ParseOut} (data : List Char)
    (h : ∀ r : List Char, r.length < data.length → p r = q r) :
    parseCore p data = parseCore q data := by
  unfold parseCore
  cases data with
  | nil => rfl
  | cons c cs =>
    by_cases h1 : c = '+'
    · simp only [if_pos h1]
    by_cases h2 : c = '-'
    · simp only [if_neg h1, if_pos h2]
    by_cases h3 : c = ':'
    · simp only [if_neg h1, if_neg h2, if_pos h3]
    by_cases h4 : c = '$'
    · simp only [if_neg h1, if_neg h2, if_neg h3, if_pos h4]
    by_cases h5 : c = '*'
    · simp only [if_neg h1, if_neg h2, if_neg h3, if_neg h4, if_pos h5]
      rcases hfind : findCRLF (c :: cs) 1 with _ | p2
      · rfl
      · simp only []
        rcases hsto : stoiOpt (substr (c :: cs) 1 (p2 - 1)) with _ | len
        · rfl
        · simp only []
          by_cases hm1 : len = -1
          · simp only [if_pos hm1]
          by_cases hneg : len < 0
          · simp only [if_neg hm1, if_pos hneg]
          simp only [if_neg hm1, if_neg hneg]
          apply parseElemsWith_congr
          intro r hr
          apply h
          have hdrop : ((c :: cs).drop (p2 + 2)).length = (c :: cs).length - (p2 + 2) :=
            List.length_drop _ _
          simp only [List.length_cons] at hdrop ⊢
          omega
    · simp only [if_neg h1, if_neg h2, if_neg h3, if_neg h4, if_neg h5]

theorem parseF_irrel :
    ∀ (fuel : Nat) (data : List Char), data.length < fuel → parseF fuel data = parse data := by
  intro fuel
  induction fuel using Nat.strong_induction_on with
  | _ fuel ih =>
    intro data hd
    rcases hfu : fuel with _ | f
    · omega
    unfold parse
    rw [show parseF (f + 1) data = parseCore (parseF f) data from rfl,
      show parseF (data.length + 1) data = parseCore (parseF data.length) data from rfl]
    apply parseCore_congr
    intro r hr
    rw [ih f (by omega) r (by omega), ih data.length (by omega) r (by omega)]

/-- The master unfolding equation for `parse`. -/
theorem parse_eq_core (data : List Char) : parse data = parseCore parse data := by
  conv_lhs => rw [parse]
  rw [show parseF (data.length + 1) data = parseCore (parseF data.length) data from rfl]
  apply parseCore_congr
  intro r hr
  exact parseF_irrel data.length r hr

/-! ### List take/drop helpers and RESP header computations -/

theorem takeLenApp {α : Type} : ∀ (l1 l2 : List α), (l1 ++ l2).take l1.length = l1 := by
  intro l1 l2
  induction l1 with
  | nil => rfl
  | cons a as ih => simp [ih]

theorem dropLenApp {α : Type} : ∀ (l1 l2 : List α), (l1 ++ l2).drop l1.length = l2 := by
  intro l1 l2
  induction l1 with
  | nil => rfl
  | cons a as ih => simp [ih]

theorem dropLenAppAdd {α : Type} :
    ∀ (l1 l2 : List α) (n : Nat), (l1 ++ l2).drop (l1.length + n) = l2.drop n := by
  intro l1 l2 n
  induction l1 with
  | nil => simp
  | cons a as ih =>
    simp only [List.cons_append, List.length_cons]
    rw [show as.length + 1 + n = (as.length + n) + 1 by omega]
    simpa using ih

theorem takeLeApp {α : Type} :
    ∀ (l1 l2 : List α) (j : Nat), j ≤ l1.length → (l1 ++ l2).take j = l1.take j := by
  intro l1
  induction l1 with
  | nil =>
    intro l2 j h
    simp at h
    simp [h]
  | cons a as ih =>
    intro l2 j h
    cases j with
    | zero => rfl
    | succ j2 =>
      simp only [List.cons_append, List.take_succ_cons]
      rw [ih l2 j2 (by simpa using h)]

theorem hasCRLF_of_no_cr : ∀ (l : List Char), (∀ c ∈ l, ¬ c = '\r') → hasCRLF l = false := by
  intro l
  induction l with
  | nil => intro _; rfl
  | cons c cs ih =>
    intro h
    simp only [hasCRLF, Bool.or_eq_false_iff]
    constructor
    · simp [h c (List.mem_cons_self c cs)]
    · exact ih (fun x hx => h x (List.mem_cons_of_mem c hx))

theorem hasCRLF_natDigits (n : Nat) : hasCRLF (natDigits n) = false :=
  hasCRLF_of_no_cr _ (fun c hc => isDigit_ne_cr (natDigits_all_digit n c hc))

theorem hasCRLF_intDigits (n : Int) : hasCRLF (intDigits n) = false := by
  unfold intDigits
  by_cases h : n < 0
  · rw [if_pos h]
    simp [hasCRLF, hasCRLF_natDigits]
  · rw [if_neg h]
    exact hasCRLF_natDigits _

theorem findCRLF_cons_header (c : Char) (x tail : List Char) (h : hasCRLF x = false) :
    findCRLF (c :: (x ++ '\r' :: '\n' :: tail)) 1 = some (1 + x.length) := by
  show findCRLFAux (x ++ '\r' :: '\n' :: tail) 1 = some (1 + x.length)
  exact findCRLFAux_append x tail 1 h

theorem substr_header (c : Char) (x tail : List Char) :
    substr (c :: (x ++ '\r' :: '\n' :: tail)) 1 (1 + x.length - 1) = x := by
  unfold substr
  rw [show 1 + x.length - 1 = x.length by omega]
  rw [show (c :: (x ++ '\r' :: '\n' :: tail)).drop 1 = x ++ '\r' :: '\n' :: tail from rfl]
  rw [takeLeApp x ('\r' :: '\n' :: tail) x.length (Nat.le_refl _)]
  exact List.take_length x

theorem drop_header (c : Char) (x tail : List Char) :
    (c :: (x ++ '\r' :: '\n' :: tail)).drop (1 + x.length + 2) = tail := by
  rw [show 1 + x.length + 2 = (x.length + 2) + 1 by omega]
  rw [List.drop_succ_cons]
  rw [show (x.length + 2 : Nat) = x.length + 2 from rfl]
  rw [dropLenAppAdd x ('\r' :: '\n' :: tail) 2]
  rfl

/-! ### One-step reductions of `parseCore` per leading byte -/

theorem parseCore_plus (rec : List Char → ParseOut) (rest : List Char) :
    parseCore rec ('+' :: rest) =
      match findCRLF ('+' :: rest) 1 with
      | none => ParseOut.needMore
      | some p => ParseOut.ok (.simpleStr (substr ('+' :: rest) 1 (p - 1))) (p + 2) := rfl

theorem parseCore_minus (rec : List Char → ParseOut) (rest : List Char) :
    parseCore rec ('-' :: rest) =
      match findCRLF ('-' :: rest) 1 with
      | none => ParseOut.needMore
      | some p => ParseOut.ok (.error (substr ('-' :: rest) 1 (p - 1))) (p + 2) := rfl

theorem parseCore_colon (rec : List Char → ParseOut) (rest : List Char) :
    parseCore rec (':' :: rest) =
      match findCRLF (':' :: rest) 1 with
      | none => ParseOut.needMore
      | some p =>
        match stollOpt (substr (':' :: rest) 1 (p - 1)) with
        | none => ParseOut.err
        | some n => ParseOut.ok (.integer n) (p + 2) := rfl

theorem parseCore_dollar (rec : List Char → ParseOut) (rest : List Char) :
    parseCore rec ('$' :: rest) =
      match findCRLF ('$' :: rest) 1 with
      | none => ParseOut.needMore
      | some p =>
        match stoiOpt (substr ('$' :: rest) 1 (p - 1)) with
        | none => ParseOut.err
        | some len =>
          if len = -1 then ParseOut.ok .nullBulk (p + 2)
          else if len < 0 then ParseOut.err
          else if ('$' :: rest).length < p + 2 + len.toNat + 2 then ParseOut.needMore
          else ParseOut.ok (.bulk (substr ('$' :: rest) (p + 2) len.toNat))
            (p + 2 + len.toNat + 2) := rfl

theorem parseCore_star (rec : List Char → ParseOut) (rest : List Char) :
    parseCore rec ('*' :: rest) =
      match findCRLF ('*' :: rest) 1 with
      | none => ParseOut.needMore
      | some p =>
        match stoiOpt (substr ('*' :: rest) 1 (p - 1)) with
        | none => ParseOut.err
        | some len =>
          if len = -1 then ParseOut.ok .nullArray (p + 2)
          else if len < 0 then ParseOut.err
          else parseElemsWith rec len.toNat (('*' :: rest).drop (p + 2)) (p + 2) [] := rfl

theorem parseCore_plus_found (rec : List Char → ParseOut) (x tail : List Char)
    (h : hasCRLF x = false) :
    parseCore rec ('+' :: (x ++ '\r' :: '\n' :: tail)) =
      ParseOut.ok (.simpleStr x) (1 + x.length + 2) := by
  rw [parseCore_plus, findCRLF_cons_header '+' x tail h]
  show ParseOut.ok
      (RespValue.simpleStr (substr ('+' :: (x ++ '\r' :: '\n' :: tail)) 1 (1 + x.length - 1)))
      (1 + x.length + 2) = _
  rw [substr_header]

theorem parseCore_minus_found (rec : List Char → ParseOut) (x tail : List Char)
    (h : hasCRLF x = false) :
    parseCore rec ('-' :: (x ++ '\r' :: '\n' :: tail)) =
      ParseOut.ok (.error x) (1 + x.length + 2) := by
  rw [parseCore_minus, findCRLF_cons_header '-' x tail h]
  show ParseOut.ok
      (RespValue.error (substr ('-' :: (x ++ '\r' :: '\n' :: tail)) 1 (1 + x.length - 1)))
      (1 + x.length + 2) = _
  rw [substr_header]

theorem parseCore_colon_digits (rec : List Char → ParseOut) (n : Int) (tail : List Char)
    (h1 : -9223372036854775808 ≤ n) (h2 : n ≤ 9223372036854775807) :
    parseCore rec (':' :: (intDigits n ++ '\r' :: '\n' :: tail)) =
      ParseOut.ok (.integer n) (1 + (intDigits n).length + 2) := by
  rw [parseCore_colon, findCRLF_cons_header ':' (intDigits n) tail (hasCRLF_intDigits n)]
  show (match stollOpt (substr (':' :: (intDigits n ++ '\r' :: '\n' :: tail)) 1
      (1 + (intDigits n).length - 1)) with
    | none => ParseOut.err
    | some m => ParseOut.ok (.integer m) (1 + (intDigits n).length + 2)) = _
  rw [substr_header, stollOpt_intDigits n h1 h2]

theorem parseCore_dollar_digits (rec : List Char → ParseOut) (s tail : List Char)
    (hL : s.length ≤ 2147483647) :
    parseCore rec ('$' :: (natDigits s.length ++ '\r' :: '\n' :: (s ++ '\r' :: '\n' :: tail))) =
      ParseOut.ok (.bulk s) (1 + (natDigits s.length).length + 2 + s.length + 2) := by
  rw [parseCore_dollar,
    findCRLF_cons_header '$' (natDigits s.length) (s ++ '\r' :: '\n' :: tail)
      (hasCRLF_natDigits _)]
  show (match stoiOpt (substr
        ('$' :: (natDigits s.length ++ '\r' :: '\n' :: (s ++ '\r' :: '\n' :: tail))) 1
        (1 + (natDigits s.length).length - 1)) with
    | none => ParseOut.err
    | some len =>
      if len = -1 then ParseOut.ok .nullBulk (1 + (natDigits s.length).length + 2)
      else if len < 0 then ParseOut.err
      else if ('$' :: (natDigits s.length ++ '\r' :: '\n' :: (s ++ '\r' :: '\n' :: tail))).length
          < 1 + (natDigits s.length).length + 2 + len.toNat + 2 then ParseOut.needMore
      else ParseOut.ok (.bulk (substr
          ('$' :: (natDigits s.length ++ '\r' :: '\n' :: (s ++ '\r' :: '\n' :: tail)))
          (1 + (natDigits s.length).length + 2) len.toNat))
        (1 + (natDigits s.length).length + 2 + len.toNat + 2)) = _
  rw [substr_header, stoiOpt_natDigits s.length (by exact_mod_cast hL)]
  show (if (s.length : Int) = -1 then
        ParseOut.ok .nullBulk (1 + (natDigits s.length).length + 2)
      else if (s.length : Int) < 0 then ParseOut.err
      else if ('$' :: (natDigits s.length ++ '\r' :: '\n' :: (s ++ '\r' :: '\n' :: tail))).length
          < 1 + (natDigits s.length).length + 2 + ((s.length : Int)).toNat + 2 then
        ParseOut.needMore
      else ParseOut.ok (.bulk (substr
          ('$' :: (natDigits s.length ++ '\r' :: '\n' :: (s ++ '\r' :: '\n' :: tail)))
          (1 + (natDigits s.length).length + 2) ((s.length : Int)).toNat))
        (1 + (natDigits s.length).length + 2 + ((s.length : Int)).toNat + 2)) = _
  rw [if_neg (by omega : ¬ ((s.length : Int) = -1)),
    if_neg (by omega : ¬ ((s.length : Int) < 0)),
    show ((s.length : Int)).toNat = s.length by omega]
  rw [if_neg (by
    simp only [List.length_cons, List.length_append]
    omega)]
  have hval : substr ('$' :: (natDigits s.length ++ '\r' :: '\n' :: (s ++ '\r' :: '\n' :: tail)))
      (1 + (natDigits s.length).length + 2) s.length = s := by
    unfold substr
    rw [drop_header '$' (natDigits s.length) (s ++ '\r' :: '\n' :: tail)]
    rw [takeLeApp s ('\r' :: '\n' :: tail) s.length (Nat.le_refl _)]
    exact List.take_length s
  rw [hval]

theorem parseCore_star_digits (rec : List Char → ParseOut) (L : Nat) (tail : List Char)
    (hL : L ≤ 2147483647) :
    parseCore rec ('*' :: (natDigits L ++ '\r' :: '\n' :: tail)) =
      parseElemsWith rec L tail (1 + (natDigits L).length + 2) [] := by
  rw [parseCore_star, findCRLF_cons_header '*' (natDigits L) tail (hasCRLF_natDigits _)]
  show (match stoiOpt (substr ('*' :: (natDigits L ++ '\r' :: '\n' :: tail)) 1
        (1 + (natDigits L).length - 1)) with
    | none => ParseOut.err
    | some len =>
      if len = -1 then ParseOut.ok .nullArray (1 + (natDigits L).length + 2)
      else if len < 0 then ParseOut.err
      else parseElemsWith rec len.toNat
        (('*' :: (natDigits L ++ '\r' :: '\n' :: tail)).drop (1 + (natDigits L).length + 2))
        (1 + (natDigits L).length + 2) []) = _
  rw [substr_header, stoiOpt_natDigits L (by exact_mod_cast hL)]
  show (if (L : Int) = -1 then ParseOut.ok .nullArray (1 + (natDigits L).length + 2)
      else if (L : Int) < 0 then ParseOut.err
      else parseElemsWith rec ((L : Int)).toNat
        (('*' :: (natDigits L ++ '\r' :: '\n' :: tail)).drop (1 + (natDigits L).length + 2))
        (1 + (natDigits L).length + 2) []) = _
  rw [if_neg (by omega : ¬ ((L : Int) = -1)), if_neg (by omega : ¬ ((L : Int) < 0)),
    show ((L : Int)).toNat = L by omega]
  rw [drop_header '*' (natDigits L) tail]

theorem parseCore_nullBulk (rec : List Char → ParseOut) (tail : List Char) :
    parseCore rec ('$' :: '-' :: '1' :: '\r' :: '\n' :: tail) = ParseOut.ok .nullBulk 5 := by
  rw [parseCore_dollar]
  rw [show findCRLF ('$' :: '-' :: '1' :: '\r' :: '\n' :: tail) 1 = some 3 from by
    show findCRLFAux ('-' :: '1' :: '\r' :: '\n' :: tail) 1 = some 3
    simp [findCRLFAux]]
  show (match stoiOpt (substr ('$' :: '-' :: '1' :: '\r' :: '\n' :: tail) 1 (3 - 1)) with
    | none => ParseOut.err
    | some len =>
      if len = -1 then ParseOut.ok .nullBulk (3 + 2)
      else if len < 0 then ParseOut.err
      else if ('$' :: '-' :: '1' :: '\r' :: '\n' :: tail).length < 3 + 2 + len.toNat + 2 then
        ParseOut.needMore
      else ParseOut.ok (.bulk (substr ('$' :: '-' :: '1' :: '\r' :: '\n' :: tail)
          (3 + 2) len.toNat)) (3 + 2 + len.toNat + 2)) = _
  rw [show stoiOpt (substr ('$' :: '-' :: '1' :: '\r' :: '\n' :: tail) 1 (3 - 1)) =
      some (-1) from rfl]
  show (if (-1 : Int) = -1 then ParseOut.ok RespValue.nullBulk (3 + 2) else _) = _
  rw [if_pos rfl]

theorem parseCore_nullArray (rec : List Char → ParseOut) (tail : List Char) :
    parseCore rec ('*' :: '-' :: '1' :: '\r' :: '\n' :: tail) = ParseOut.ok .nullArray 5 := by
  rw [parseCore_star]
  rw [show findCRLF ('*' :: '-' :: '1' :: '\r' :: '\n' :: tail) 1 = some 3 from by
    show findCRLFAux ('-' :: '1' :: '\r' :: '\n' :: tail) 1 = some 3
    simp [findCRLFAux]]
  show (match stoiOpt (substr ('*' :: '-' :: '1' :: '\r' :: '\n' :: tail) 1 (3 - 1)) with
    | none => ParseOut.err
    | some len =>
      if len = -1 then ParseOut.ok .nullArray (3 + 2)
      else if len < 0 then ParseOut.err
      else parseElemsWith rec len.toNat
        (('*' :: '-' :: '1' :: '\r' :: '\n' :: tail).drop (3 + 2)) (3 + 2) []) = _
  rw [show stoiOpt (substr ('*' :: '-' :: '1' :: '\r' :: '\n' :: tail) 1 (3 - 1)) =
      some (-1) from rfl]
  show (if (-1 : Int) = -1 then ParseOut.ok RespValue.nullArray (3 + 2) else _) = _
  rw [if_pos rfl]

theorem parseElemsWith_step (rec : List Char → ParseOut) (n : Nat) (rem : List Char)
    (k : Nat) (acc : List RespValue) (v : RespValue) (c : Nat)
    (h : rec rem = ParseOut.ok v c) (hne : rem.isEmpty = false) :
    parseElemsWith rec (n + 1) rem k acc =
      parseElemsWith rec n (rem.drop c) (k + c) (v :: acc) := by
  simp only [parseElemsWith, hne, Bool.false_eq_true, if_false, h]

theorem rvSizeList_pos (es : List RespValue) : 0 < rvSizeList es := by
  cases es with
  | nil => simp [rvSizeList]
  | cons v vs =>
    have := rvSize_pos v
    simp only [rvSizeList]
    omega

mutual

/-- Round trip with arbitrary trailing bytes: parsing an encoding followed by
anything yields the value back, consuming exactly the encoding. -/
theorem parse_encode_ext (v : RespValue) (hv : validB v = true) :
    ∀ extra : List Char, parse (encode v ++ extra) = ParseOut.ok v (encode v).length := by
  cases v with
  | simpleStr s =>
    intro extra
    rw [validB_simpleStr] at hv
    have hcrlf : hasCRLF s = false := by simpa using hv
    rw [encode_simpleStr]
    rw [show ('+' :: (s ++ CRLF)) ++ extra = '+' :: (s ++ '\r' :: '\n' :: extra) from by
      simp [CRLF]]
    rw [parse_eq_core, parseCore_plus_found parse s extra hcrlf]
    congr 1
    simp [CRLF]
    omega
  | error s =>
    intro extra
    rw [validB_error] at hv
    have hcrlf : hasCRLF s = false := by simpa using hv
    rw [encode_error]
    rw [show ('-' :: (s ++ CRLF)) ++ extra = '-' :: (s ++ '\r' :: '\n' :: extra) from by
      simp [CRLF]]
    rw [parse_eq_core, parseCore_minus_found parse s extra hcrlf]
    congr 1
    simp [CRLF]
    omega
  | integer n =>
    intro extra
    rw [validB_integer] at hv
    have hr := of_decide_eq_true hv
    rw [encode_integer]
    rw [show (':' :: (intDigits n ++ CRLF)) ++ extra =
        ':' :: (intDigits n ++ '\r' :: '\n' :: extra) from by simp [CRLF]]
    rw [parse_eq_core, parseCore_colon_digits parse n extra hr.1 hr.2]
    congr 1
    simp [CRLF]
    omega
  | bulk s =>
    intro extra
    rw [validB_bulk] at hv
    have hlen : s.length ≤ 2147483647 := of_decide_eq_true hv
    rw [encode_bulk]
    rw [show ('$' :: (natDigits s.length ++ CRLF ++ s ++ CRLF)) ++ extra =
        '$' :: (natDigits s.length ++ '\r' :: '\n' :: (s ++ '\r' :: '\n' :: extra)) from by
      simp [CRLF]]
    rw [parse_eq_core, parseCore_dollar_digits parse s extra hlen]
    congr 1
    simp [CRLF, List.length_append]
    omega
  | nullBulk =>
    intro extra
    rw [encode_nullBulk]
    rw [show (['$', '-', '1', '\r', '\n'] : List Char) ++ extra =
        '$' :: '-' :: '1' :: '\r' :: '\n' :: extra from rfl]
    rw [parse_eq_core, parseCore_nullBulk parse extra]
    rfl
  | nullArray =>
    intro extra
    rw [encode_nullArray]
    rw [show (['*', '-', '1', '\r', '\n'] : List Char) ++ extra =
        '*' :: '-' :: '1' :: '\r' :: '\n' :: extra from rfl]
    rw [parse_eq_core, parseCore_nullArray parse extra]
    rfl
  | array es =>
    intro extra
    rw [validB_array] at hv
    simp only [Bool.and_eq_true, decide_eq_true_eq] at hv
    obtain ⟨hlen, hall⟩ := hv
    rw [encode_array]
    rw [show ('*' :: (natDigits es.length ++ CRLF ++ (es.map encode).flatten)) ++ extra =
        '*' :: (natDigits es.length ++ '\r' :: '\n' :: ((es.map encode).flatten ++ extra))
        from by simp [CRLF]]
    rw [parse_eq_core, parseCore_star_digits parse es.length
      ((es.map encode).flatten ++ extra) hlen]
    rw [parse_encodeList_ext es hall extra (1 + (natDigits es.length).length + 2) []]
    congr 1
    simp [CRLF, List.length_append]
    omega
  termination_by rvSize v
  decreasing_by
    simp_wf
    subst_vars
    rw [rvSize_array_eq]
    omega

/-- The `parseArray` element loop consumes exactly the concatenated
encodings of a valid element list. -/
theorem parse_encodeList_ext (es : List RespValue) (hall : es.all validB = true) :
    ∀ (extra : List Char) (k : Nat) (acc : List RespValue),
      parseElemsWith parse es.length ((es.map encode).flatten ++ extra) k acc =
        ParseOut.ok (.array (acc.reverse ++ es)) (k + ((es.map encode).flatten).length) := by
  cases es with
  | nil =>
    intro extra k acc
    simp only [List.length_nil, List.map_nil, List.flatten_nil, List.nil_append]
    rw [show parseElemsWith parse 0 extra k acc = ParseOut.ok (.array acc.reverse) k from rfl]
    simp
  | cons v es2 =>
    intro extra k acc
    simp only [List.all_cons, Bool.and_eq_true] at hall
    obtain ⟨hv, hall2⟩ := hall
    have hshape : ((v :: es2).map encode).flatten ++ extra =
        encode v ++ ((es2.map encode).flatten ++ extra) := by
      simp [List.append_assoc]
    rw [hshape]
    have hne : (encode v ++ ((es2.map encode).flatten ++ extra)).isEmpty = false := by
      rcases hev : encode v with _ | ⟨c0, cs0⟩
      · exact absurd hev (encode_ne_nil v)
      · rfl
    rw [show (v :: es2).length = es2.length + 1 from rfl]
    rw [parseElemsWith_step parse es2.length _ k acc v (encode v).length
      (parse_encode_ext v hv ((es2.map encode).flatten ++ extra)) hne]
    rw [dropLenApp (encode v) ((es2.map encode).flatten ++ extra)]
    rw [parse_encodeList_ext es2 hall2 extra (k + (encode v).length) (v :: acc)]
    congr 1
    · simp
    · simp [List.length_append]
      omega
  termination_by rvSizeList es
  decreasing_by
    · subst_vars
      simp only [rvSizeList]
      have := rvSizeList_pos es2
      omega
    · subst_vars
      simp only [rvSizeList]
      have := rvSize_pos v
      omega

end

/-! ### Proper-preamble lemmas: cut inputs make the parser wait for more -/

theorem takeLenAppAdd {α : Type} :
    ∀ (l1 l2 : List α) (n : Nat), (l1 ++ l2).take (l1.length + n) = l1 ++ l2.take n := by
  intro l1 l2 n
  induction l1 with
  | nil => simp
  | cons a as ih =>
    simp only [List.cons_append, List.length_cons]
    rw [show as.length + 1 + n = (as.length + n) + 1 by omega]
    simp only [List.take_succ_cons]
    rw [ih]

theorem hasCRLF_take_header (x rest2 : List Char) (j : Nat)
    (h : hasCRLF x = false) (hj : j ≤ x.length + 1) :
    hasCRLF ((x ++ '\r' :: '\n' :: rest2).take j) = false := by
  by_cases hj2 : j ≤ x.length
  · rw [takeLeApp x _ j hj2]
    exact hasCRLF_take x j h
  · have hje : j = x.length + 1 := by omega
    subst hje
    rw [takeLenAppAdd x ('\r' :: '\n' :: rest2) 1]
    rw [show ('\r' :: '\n' :: rest2).take 1 = ['\r'] from rfl]
    exact hasCRLF_append_cr x h

theorem findCRLF_cons_none (c : Char) (rest : List Char) (h : hasCRLF rest = false) :
    findCRLF (c :: rest) 1 = none := by
  show findCRLFAux rest 1 = none
  exact findCRLFAux_none rest 1 h

theorem parseCore_noCRLF (rec : List Char → ParseOut) (c : Char) (rest : List Char)
    (hfind : findCRLF (c :: rest) 1 = none)
    (hc : c = '+' ∨ c = '-' ∨ c = ':' ∨ c = '$' ∨ c = '*') :
    parseCore rec (c :: rest) = ParseOut.needMore := by
  rcases hc with rfl | rfl | rfl | rfl | rfl
  · rw [parseCore_plus, hfind]
  · rw [parseCore_minus, hfind]
  · rw [parseCore_colon, hfind]
  · rw [parseCore_dollar, hfind]
  · rw [parseCore_star, hfind]

theorem parseCore_dollar_header_short (rec : List Char → ParseOut) (L : Nat)
    (Y : List Char) (hL : L ≤ 2147483647) (hY : Y.length < L + 2) :
    parseCore rec ('$' :: (natDigits L ++ '\r' :: '\n' :: Y)) = ParseOut.needMore := by
  rw [parseCore_dollar, findCRLF_cons_header '$' (natDigits L) Y (hasCRLF_natDigits L)]
  show (match stoiOpt (substr ('$' :: (natDigits L ++ '\r' :: '\n' :: Y)) 1
        (1 + (natDigits L).length - 1)) with
    | none => ParseOut.err
    | some len =>
      if len = -1 then ParseOut.ok .nullBulk (1 + (natDigits L).length + 2)
      else if len < 0 then ParseOut.err
      else if ('$' :: (natDigits L ++ '\r' :: '\n' :: Y)).length
          < 1 + (natDigits L).length + 2 + len.toNat + 2 then ParseOut.needMore
      else ParseOut.ok (.bulk (substr ('$' :: (natDigits L ++ '\r' :: '\n' :: Y))
          (1 + (natDigits L).length + 2) len.toNat))
        (1 + (natDigits L).length + 2 + len.toNat + 2)) = _
  rw [substr_header, stoiOpt_natDigits L (by exact_mod_cast hL)]
  show (if (L : Int) = -1 then ParseOut.ok .nullBulk (1 + (natDigits L).length + 2)
      else if (L : Int) < 0 then ParseOut.err
      else if ('$' :: (natDigits L ++ '\r' :: '\n' :: Y)).length
          < 1 + (natDigits L).length + 2 + ((L : Int)).toNat + 2 then ParseOut.needMore
      else ParseOut.ok (.bulk (substr ('$' :: (natDigits L ++ '\r' :: '\n' :: Y))
          (1 + (natDigits L).length + 2) ((L : Int)).toNat))
        (1 + (natDigits L).length + 2 + ((L : Int)).toNat + 2)) = _
  rw [if_neg (by omega : ¬ ((L : Int) = -1)), if_neg (by omega : ¬ ((L : Int) < 0)),
    show ((L : Int)).toNat = L by omega]
  rw [if_pos (by
    simp only [List.length_cons, List.length_append]
    omega)]

mutual

/-- Any proper preamble of a valid encoding parses to "need more bytes". -/
theorem parse_take_needMore (v : RespValue) (hv : validB v = true) :
    ∀ i : Nat, i < (encode v).length → parse ((encode v).take i) = ParseOut.needMore := by
  cases v with
  | simpleStr s =>
    intro i hi
    rw [validB_simpleStr] at hv
    have hcrlf : hasCRLF s = false := by simpa using hv
    rw [encode_simpleStr] at hi ⊢
    rw [show CRLF = '\r' :: '\n' :: ([] : List Char) from rfl] at hi ⊢
    rcases i with _ | i2
    · rfl
    · rw [List.take_succ_cons, parse_eq_core]
      apply parseCore_noCRLF parse '+' _ ?_ (Or.inl rfl)
      apply findCRLF_cons_none
      apply hasCRLF_take_header s [] i2 hcrlf
      simp only [List.length_cons, List.length_append, List.length_nil] at hi
      omega
  | error s =>
    intro i hi
    rw [validB_error] at hv
    have hcrlf : hasCRLF s = false := by simpa using hv
    rw [encode_error] at hi ⊢
    rw [show CRLF = '\r' :: '\n' :: ([] : List Char) from rfl] at hi ⊢
    rcases i with _ | i2
    · rfl
    · rw [List.take_succ_cons, parse_eq_core]
      apply parseCore_noCRLF parse '-' _ ?_ (Or.inr (Or.inl rfl))
      apply findCRLF_cons_none
      apply hasCRLF_take_header s [] i2 hcrlf
      simp only [List.length_cons, List.length_append, List.length_nil] at hi
      omega
  | integer n =>
    intro i hi
    rw [encode_integer] at hi ⊢
    rw [show CRLF = '\r' :: '\n' :: ([] : List Char) from rfl] at hi ⊢
    rcases i with _ | i2
    · rfl
    · rw [List.take_succ_cons, parse_eq_core]
      apply parseCore_noCRLF parse ':' _ ?_ (Or.inr (Or.inr (Or.inl rfl)))
      apply findCRLF_cons_none
      apply hasCRLF_take_header (intDigits n) [] i2 (hasCRLF_intDigits n)
      simp only [List.length_cons, List.length_append, List.length_nil] at hi
      omega
  | bulk s =>
    intro i hi
    rw [validB_bulk] at hv
    have hlen : s.length ≤ 2147483647 := of_decide_eq_true hv
    rw [encode_bulk] at hi ⊢
    rw [show natDigits s.length ++ CRLF ++ s ++ CRLF =
        natDigits s.length ++ '\r' :: '\n' :: (s ++ '\r' :: '\n' :: []) from by
      simp [CRLF]] at hi ⊢
    rcases i with _ | i2
    · rfl
    · rw [List.take_succ_cons, parse_eq_core]
      by_cases hcut : i2 ≤ (natDigits s.length).length + 1
      · apply parseCore_noCRLF parse '$' _ ?_ (Or.inr (Or.inr (Or.inr (Or.inl rfl))))
        apply findCRLF_cons_none
        exact hasCRLF_take_header (natDigits s.length) _ i2 (hasCRLF_natDigits _) hcut
      · obtain ⟨j3, hj3⟩ : ∃ j3, i2 = ((natDigits s.length).length + 2) + j3 :=
          ⟨i2 - ((natDigits s.length).length + 2), by omega⟩
        subst hj3
        rw [show ((natDigits s.length).length + 2) + j3 =
            (natDigits s.length).length + (2 + j3) by omega]
        rw [takeLenAppAdd (natDigits s.length) ('\r' :: '\n' :: (s ++ '\r' :: '\n' :: []))
          (2 + j3)]
        rw [show ('\r' :: '\n' :: (s ++ '\r' :: '\n' :: [])).take (2 + j3) =
            '\r' :: '\n' :: ((s ++ '\r' :: '\n' :: []).take j3) from by
          rw [show 2 + j3 = (j3 + 1) + 1 by omega]
          rw [List.take_succ_cons, List.take_succ_cons]]
        apply parseCore_dollar_header_short parse s.length _ hlen
        rw [List.length_take]
        simp only [List.length_cons, List.length_append, List.length_nil] at hi ⊢
        omega
  | nullBulk =>
    intro i hi
    rw [encode_nullBulk] at hi ⊢
    have hi5 : i < 5 := by simpa using hi
    interval_cases i <;> rfl
  | nullArray =>
    intro i hi
    rw [encode_nullArray] at hi ⊢
    have hi5 : i < 5 := by simpa using hi
    interval_cases i <;> rfl
  | array es =>
    intro i hi
    rw [validB_array] at hv
    simp only [Bool.and_eq_true, decide_eq_true_eq] at hv
    obtain ⟨hlen, hall⟩ := hv
    rw [encode_array] at hi ⊢
    rw [show natDigits es.length ++ CRLF ++ (es.map encode).flatten =
        natDigits es.length ++ '\r' :: '\n' :: (es.map encode).flatten from by
      simp [CRLF]] at hi ⊢
    rcases i with _ | i2
    · rfl
    · rw [List.take_succ_cons, parse_eq_core]
      by_cases hcut : i2 ≤ (natDigits es.length).length + 1
      · apply parseCore_noCRLF parse '*' _ ?_ (Or.inr (Or.inr (Or.inr (Or.inr rfl))))
        apply findCRLF_cons_none
        exact hasCRLF_take_header (natDigits es.length) _ i2 (hasCRLF_natDigits _) hcut
      · obtain ⟨j3, hj3⟩ : ∃ j3, i2 = ((natDigits es.length).length + 2) + j3 :=
          ⟨i2 - ((natDigits es.length).length + 2), by omega⟩
        subst hj3
        rw [show ((natDigits es.length).length + 2) + j3 =
            (natDigits es.length).length + (2 + j3) by omega]
        rw [takeLenAppAdd (natDigits es.length) ('\r' :: '\n' :: (es.map encode).flatten)
          (2 + j3)]
        rw [show ('\r' :: '\n' :: (es.map encode).flatten).take (2 + j3) =
            '\r' :: '\n' :: ((es.map encode).flatten.take j3) from by
          rw [show 2 + j3 = (j3 + 1) + 1 by omega]
          rw [List.take_succ_cons, List.take_succ_cons]]
        rw [parseCore_star_digits parse es.length _ hlen]
        apply parseElems_take_needMore es hall j3 ?_ _ _
        simp only [List.length_cons, List.length_append] at hi
        omega
  termination_by rvSize v
  decreasing_by
    simp_wf
    subst_vars
    rw [rvSize_array_eq]
    omega

/-- Any proper preamble of the concatenated encodings of a valid element list
makes the element loop wait for more bytes. -/
theorem parseElems_take_needMore (es : List RespValue) (hall : es.all validB = true) :
    ∀ j : Nat, j < ((es.map encode).flatten).length →
      ∀ (k : Nat) (acc : List RespValue),
        parseElemsWith parse es.length (((es.map encode).flatten).take j) k acc =
          ParseOut.needMore := by
  cases es with
  | nil =>
    intro j hj
    simp at hj
  | cons v es2 =>
    intro j hj k acc
    simp only [List.all_cons, Bool.and_eq_true] at hall
    obtain ⟨hv, hall2⟩ := hall
    rw [show ((v :: es2).map encode).flatten =
        encode v ++ (es2.map encode).flatten from by simp] at hj ⊢
    rw [show (v :: es2).length = es2.length + 1 from rfl]
    by_cases hsmall : j < (encode v).length
    · rw [takeLeApp (encode v) _ j (by omega)]
      rcases j with _ | j2
      · rfl
      · have hparse : parse ((encode v).take (j2 + 1)) = ParseOut.needMore :=
          parse_take_needMore v hv (j2 + 1) hsmall
        have hne : ((encode v).take (j2 + 1)).isEmpty = false := by
          rcases hev : encode v with _ | ⟨c0, cs0⟩
          · exact absurd hev (encode_ne_nil v)
          · rfl
        simp only [parseElemsWith, hne, Bool.false_eq_true, if_false, hparse]
    · obtain ⟨j2, hj2⟩ : ∃ j2, j = (encode v).length + j2 :=
        ⟨j - (encode v).length, by omega⟩
      subst hj2
      rw [takeLenAppAdd (encode v) _ j2]
      have hne : (encode v ++ ((es2.map encode).flatten).take j2).isEmpty = false := by
        rcases hev : encode v with _ | ⟨c0, cs0⟩
        · exact absurd hev (encode_ne_nil v)
        · rfl
      have hparse := parse_encode_ext v hv (((es2.map encode).flatten).take j2)
      rw [parseElemsWith_step parse es2.length _ k acc v (encode v).length hparse hne]
      rw [dropLenApp (encode v) _]
      apply parseElems_take_needMore es2 hall2 j2 ?_ _ _
      simp only [List.length_append] at hj
      omega
  termination_by rvSizeList es
  decreasing_by
    · subst_vars
      simp only [rvSizeList]
      have := rvSizeList_pos es2
      omega
    · subst_vars
      simp only [rvSizeList]
      have := rvSize_pos v
      omega

end

/-- Witness for `c6_amended` at a concrete reachable table. -/
theorem c6_amended_witness :
    HTReach hfN (HashTable.empty 8 : HashTable Nat Unit) ∧
    (((HashTable.empty 8 : HashTable Nat Unit).capacity = 8 →
        (HashTable.empty 8 : HashTable Nat Unit).size ≤ 6) ∧
      (8 < (HashTable.empty 8 : HashTable Nat Unit).capacity →
        (HashTable.empty 8 : HashTable Nat Unit).capacity ≤
            5 * (HashTable.empty 8 : HashTable Nat Unit).size ∧
          10 * (HashTable.empty 8 : HashTable Nat Unit).size ≤
            7 * (HashTable.empty 8 : HashTable Nat Unit).capacity + 10)) :=
  ⟨HTReach.init, c6_amended hfN (HashTable.empty 8) HTReach.init⟩

theorem validB_nullBulk : validB .nullBulk = true := by
  unfold validB
  rw [show rvSize .nullBulk = 1 from by simp [rvSize]]
  rfl

theorem validB_nullArray : validB .nullArray = true := by
  unfold validB
  rw [show rvSize .nullArray = 1 from by simp [rvSize]]
  rfl

/-- C7 counterexample: the simple string whose payload contains CRLF encodes to
`+a\r\nb\r\n` (7 bytes) but parses back as the simple string `a` with only 4
bytes consumed, so encode-then-parse is not the identity on all values of the
five wire types. -/
theorem c7_counterexample :
    encode (RespValue.simpleStr ['a', '\r', '\n', 'b']) =
        ['+', 'a', '\r', '\n', 'b', '\r', '\n'] ∧
      parse ['+', 'a', '\r', '\n', 'b', '\r', '\n'] =
        ParseOut.ok (RespValue.simpleStr ['a']) 4 ∧
      ¬ ParseOut.ok (RespValue.simpleStr ['a']) 4 =
          ParseOut.ok (RespValue.simpleStr ['a', '\r', '\n', 'b'])
            (['+', 'a', '\r', '\n', 'b', '\r', '\n'] : List Char).length := by
  refine ⟨?_, ?_, ?_⟩
  · rw [encode_simpleStr]
    rfl
  · rfl
  · intro h
    injection h with h1 h2
    exact absurd h2 (by decide)

/-- C7 (amended): for every RESP value whose textual payloads are CRLF-free and
whose bulk/array lengths fit in a C `int` (`validB`), parsing the encoding
returns the original value with consumed count equal to the encoding's length. -/
theorem c7_amended (v : RespValue) (hv : validB v = true) :
    parse (encode v) = ParseOut.ok v (encode v).length := by
  have h := parse_encode_ext v hv []
  rwa [List.append_nil] at h

/-- Witness for `c7_amended` on a nested concrete value covering all five wire
types. -/
theorem c7_amended_witness :
    parse (encode (RespValue.array [RespValue.simpleStr ['O', 'K'],
        RespValue.integer (-5), RespValue.bulk ['x'], RespValue.nullBulk,
        RespValue.nullArray])) =
      ParseOut.ok (RespValue.array [RespValue.simpleStr ['O', 'K'],
          RespValue.integer (-5), RespValue.bulk ['x'], RespValue.nullBulk,
          RespValue.nullArray])
        (encode (RespValue.array [RespValue.simpleStr ['O', 'K'],
            RespValue.integer (-5), RespValue.bulk ['x'], RespValue.nullBulk,
            RespValue.nullArray])).length :=
  c7_amended _ (by
    simp [validB_array, validB_simpleStr, validB_integer, validB_bulk,
      validB_nullBulk, validB_nullArray, hasCRLF])

/-- C8: for every well-formed RESP-2 message — the encoding of a wire-valid
value — every proper prefix parses to "need more bytes", and the whole message
parses to the complete value with consumed count equal to the message length. -/
theorem c8_partial_parse (v : RespValue) (hv : validB v = true) :
    (∀ i : Nat, i < (encode v).length →
        parse ((encode v).take i) = ParseOut.needMore) ∧
      parse (encode v) = ParseOut.ok v (encode v).length := by
  constructor
  · exact parse_take_needMore v hv
  · have h := parse_encode_ext v hv []
    rwa [List.append_nil] at h

/-- Definitional one-step unfolding of the `process_commands` while loop. -/
theorem processAuxF_succ (exec : List (List Char) → List Char) (fuel : Nat)
    (buf : List Char) (pos : Nat) (acc : List (List Char)) :
    processAuxF exec (fuel + 1) buf pos acc =
      if pos < buf.length then
        if (buf.drop pos).head? = some '*' then
          match findCRLF buf pos with
          | none => (true, acc.reverse, buf)
          | some endPos =>
            match stoiOpt (substr buf (pos + 1) (endPos - pos - 1)) with
            | none => (false, acc.reverse, buf)
            | some arraySize =>
              if arraySize ≤ 0 then (false, acc.reverse, buf)
              else
                match elemsLoop buf arraySize.toNat (endPos + 2) [] with
                | ElemRes.fail => (false, acc.reverse, buf)
                | ElemRes.incomplete => (true, acc.reverse, buf)
                | ElemRes.done args cur =>
                  match args with
                  | [] => processAuxF exec fuel (buf.drop cur) 0 acc
                  | a0 :: rest =>
                    processAuxF exec fuel (buf.drop cur) 0
                      (exec (a0.map Char.toUpper :: rest) :: acc)
        else processAuxF exec fuel buf (pos + 1) acc
      else (true, acc.reverse, buf) := rfl

/-- A buffer whose unscanned part contains no `'*'` byte is skipped to the
end, one byte at a time, and the loop reports success with the buffer kept. -/
theorem processAuxF_skip (exec : List (List Char) → List Char) :
    ∀ (fuel : Nat) (buf : List Char) (pos : Nat) (acc : List (List Char)),
      buf.length ≤ pos + fuel →
      (∀ c ∈ buf, ¬ c = '*') →
      processAuxF exec fuel buf pos acc = (true, acc.reverse, buf) := by
  intro fuel
  induction fuel with
  | zero =>
    intro buf pos acc hle hno
    rfl
  | succ n ih =>
    intro buf pos acc hle hno
    by_cases hpos : pos < buf.length
    · rcases hdrop : buf.drop pos with _ | ⟨c, t⟩
      · exfalso
        have : (buf.drop pos).length = buf.length - pos := List.length_drop pos buf
        rw [hdrop] at this
        simp at this
        omega
      · have hc : ¬ c = '*' := by
          apply hno
          apply List.mem_of_mem_drop (n := pos)
          rw [hdrop]
          exact List.mem_cons_self c t
        have hne : ¬ (buf.drop pos).head? = some '*' := by
          rw [hdrop]
          intro h
          injection h with h1
          exact hc h1
        rw [processAuxF_succ, if_pos hpos, if_neg hne]
        exact ih buf (pos + 1) acc (by omega) hno
    · rw [processAuxF_succ, if_neg hpos]

/-- C4 counterexample: the buffer `X*1\r\n$4\r\nPING\r\n` starts with the
unknown byte `X`, yet `process_commands` silently skips it, executes the
following command, and returns `true` (connection kept open). -/
theorem c4_counterexample :
    (['X', '*', '1', '\r', '\n', '$', '4', '\r', '\n', 'P', 'I', 'N', 'G',
        '\r', '\n'] : List Char).head? = some 'X' ∧
      ¬ ('X' = '*') ∧
      processCommandsRun echoExec
          ['X', '*', '1', '\r', '\n', '$', '4', '\r', '\n', 'P', 'I', 'N',
            'G', '\r', '\n'] =
        (true, [['P', 'I', 'N', 'G']], []) := by
  refine ⟨rfl, by decide, ?_⟩
  decide

/-- C4 (amended): a malformed (`stoi` failure) or non-positive array-size
field after a `'*'` does return `false` so the server closes the connection,
but a buffer whose bytes are all different from `'*'` is scanned over without
any error: the routine returns `true` with the junk left in the buffer, so
unknown leading bytes are silently skipped while the connection stays open. -/
theorem c4_amended (exec : List (List Char) → List Char)
    (buf field rest : List Char)
    (hnostar : ∀ c ∈ buf, ¬ c = '*')
    (hfield : hasCRLF field = false) :
    processCommandsRun exec buf = (true, [], buf) ∧
      (stoiOpt field = none →
        processCommandsRun exec ('*' :: (field ++ '\r' :: '\n' :: rest)) =
          (false, [], '*' :: (field ++ '\r' :: '\n' :: rest))) ∧
      (∀ n : Int, stoiOpt field = some n → n ≤ 0 →
        processCommandsRun exec ('*' :: (field ++ '\r' :: '\n' :: rest)) =
          (false, [], '*' :: (field ++ '\r' :: '\n' :: rest))) := by
  have hfind : findCRLF ('*' :: (field ++ '\r' :: '\n' :: rest)) 0 =
      some (1 + field.length) := by
    show findCRLFAux ('*' :: (field ++ '\r' :: '\n' :: rest)) 0 =
      some (1 + field.length)
    rw [show findCRLFAux ('*' :: (field ++ '\r' :: '\n' :: rest)) 0 =
        findCRLFAux (field ++ '\r' :: '\n' :: rest) 1 from rfl]
    exact findCRLFAux_append field rest 1 hfield
  have hsub : substr ('*' :: (field ++ '\r' :: '\n' :: rest)) (0 + 1)
      (1 + field.length - 0 - 1) = field := substr_header '*' field rest
  have hstar : (('*' :: (field ++ '\r' :: '\n' :: rest)).drop 0).head? =
      some '*' := rfl
  refine ⟨?_, ?_, ?_⟩
  · exact processAuxF_skip exec (buf.length + 1) buf 0 [] (by omega) hnostar
  · intro hs
    show processAuxF exec (('*' :: (field ++ '\r' :: '\n' :: rest)).length + 1)
      ('*' :: (field ++ '\r' :: '\n' :: rest)) 0 [] = _
    rw [processAuxF_succ, if_pos (by simp), if_pos hstar]
    rw [hfind]
    simp only [hsub, hs]
    rfl
  · intro n hs hn
    show processAuxF exec (('*' :: (field ++ '\r' :: '\n' :: rest)).length + 1)
      ('*' :: (field ++ '\r' :: '\n' :: rest)) 0 [] = _
    rw [processAuxF_succ, if_pos (by simp), if_pos hstar]
    rw [hfind]
    simp only [hsub, hs]
    rw [if_pos hn]
    rfl

/-- Witness for `c4_amended`: junk buffer `X` kept with success; array-size
fields `z` (stoi failure) and `0` (non-positive) close the connection. -/
theorem c4_amended_witness :
    processCommandsRun echoExec ['X'] = (true, [], ['X']) ∧
      processCommandsRun echoExec ('*' :: (['z'] ++ '\r' :: '\n' :: [])) =
        (false, [], '*' :: (['z'] ++ '\r' :: '\n' :: [])) ∧
      processCommandsRun echoExec ('*' :: (['0'] ++ '\r' :: '\n' :: [])) =
        (false, [], '*' :: (['0'] ++ '\r' :: '\n' :: [])) :=
  ⟨(c4_amended echoExec ['X'] ['z'] [] (by decide) (by decide)).1,
   (c4_amended echoExec ['X'] ['z'] [] (by decide) (by decide)).2.1 (by decide),
   (c4_amended echoExec ['X'] ['0'] [] (by decide) (by decide)).2.2 0 (by decide)
     (by decide)⟩

/-- Writing bucket `i` and reading it back. -/
theorem getD_set_eq {α : Type} (a d : α) :
    ∀ (l : List α) (i : Nat), i < l.length → (l.set i a).getD i d = a := by
  intro l
  induction l with
  | nil =>
    intro i h
    simp at h
  | cons x xs ih =>
    intro i h
    cases i with
    | zero => rfl
    | succ j =>
      show (xs.set j a).getD j d = a
      apply ih
      simp at h
      omega

/-- Writing bucket `i` leaves every other bucket unchanged. -/
theorem getD_set_ne {α : Type} (a d : α) :
    ∀ (l : List α) (i j : Nat), ¬ i = j → (l.set i a).getD j d = l.getD j d := by
  intro l
  induction l with
  | nil =>
    intro i j h
    rfl
  | cons x xs ih =>
    intro i j h
    cases i with
    | zero =>
      cases j with
      | zero => exact absurd rfl h
      | succ j2 => rfl
    | succ i2 =>
      cases j with
      | zero => rfl
      | succ j2 => exact ih i2 j2 (fun hh => h (by rw [hh]))

/-- Rehashing one chain preserves the bucket count of the target table. -/
theorem foldl_reNode_length {K V : Type} [DecidableEq K] (hf : K → Nat)
    (n : Nat) :
    ∀ (chain : List (K × V)) (tab : List (List (K × V))),
      (chain.foldl (HashTable.reNode hf n) tab).length = tab.length := by
  intro chain
  induction chain with
  | nil =>
    intro tab
    rfl
  | cons p rest ih =>
    intro tab
    show (rest.foldl (HashTable.reNode hf n) (HashTable.reNode hf n tab p)).length =
      tab.length
    rw [ih]
    simp [HashTable.reNode]

/-- Rehashing all buckets preserves the bucket count of the target table. -/
theorem foldl_buckets_length {K V : Type} [DecidableEq K] (hf : K → Nat)
    (n : Nat) :
    ∀ (bs : List (List (K × V))) (tab : List (List (K × V))),
      (bs.foldl (fun nt chain => chain.foldl (HashTable.reNode hf n) nt)
          tab).length = tab.length := by
  intro bs
  induction bs with
  | nil =>
    intro tab
    rfl
  | cons c cs ih =>
    intro tab
    show (cs.foldl (fun nt chain => chain.foldl (HashTable.reNode hf n) nt)
      (c.foldl (HashTable.reNode hf n) tab)).length = tab.length
    rw [ih, foldl_reNode_length]

/-- `resize(new_capacity)` produces exactly `new_capacity` buckets. -/
theorem resize_table_length {K V : Type} [DecidableEq K] (hf : K → Nat)
    (n : Nat) (ht : HashTable K V) : (ht.resize hf n).table.length = n := by
  show (ht.table.foldl (fun nt chain => chain.foldl (HashTable.reNode hf n) nt)
    (List.replicate n [])).length = n
  rw [foldl_buckets_length]
  simp

/-- After the in-place update of the first matching node, scanning the chain
finds the new value. -/
theorem find_updateChain {K V : Type} [DecidableEq K] (k : K) (v : V) :
    ∀ c : List (K × V), HashTable.chainHas k c = true →
      (HashTable.updateChain k v c).find? (fun p => decide (p.1 = k)) =
        some (k, v) := by
  intro c
  induction c with
  | nil =>
    intro h
    simp [HashTable.chainHas] at h
  | cons p rest ih =>
    intro h
    by_cases hp : p.1 = k
    · simp only [HashTable.updateChain, if_pos hp]
      rw [List.find?_cons_of_pos _ (by simp [hp])]
      rw [hp]
    · simp only [HashTable.updateChain, if_neg hp]
      rw [List.find?_cons_of_neg _ (by simp [hp])]
      apply ih
      simp only [HashTable.chainHas, List.any_cons, Bool.or_eq_true] at h
      rcases h with h | h
      · exact absurd (of_decide_eq_true h) hp
      · exact h

/-- `insert` followed by `get` on the same key returns the stored value, for
any table whose bucket list matches its positive capacity. -/
theorem insert_get_self {K V : Type} [DecidableEq K] (hf : K → Nat) (k : K)
    (v : V) (ht : HashTable K V) (hlen : ht.table.length = ht.capacity)
    (hcap : 0 < ht.capacity) : (ht.insert hf k v).get hf k = some v := by
  obtain ⟨ht1, hif, hlen1, hcap1⟩ :
      ∃ ht1 : HashTable K V,
        (if 7 * ht.capacity ≤ 10 * ht.size then ht.resize hf (2 * ht.capacity)
          else ht) = ht1 ∧ ht1.table.length = ht1.capacity ∧
          0 < ht1.capacity := by
    by_cases hg : 7 * ht.capacity ≤ 10 * ht.size
    · refine ⟨ht.resize hf (2 * ht.capacity), by rw [if_pos hg], ?_, ?_⟩
      · rw [resize_table_length]
        rfl
      · show 0 < 2 * ht.capacity
        omega
    · exact ⟨ht, by rw [if_neg hg], hlen, hcap⟩
  have hidx : HashTable.hashIdx hf ht1.capacity k < ht1.table.length := by
    rw [hlen1]
    exact Nat.mod_lt _ hcap1
  unfold HashTable.insert
  rw [hif]
  by_cases hch :
      HashTable.chainHas k
        (ht1.table.getD (HashTable.hashIdx hf ht1.capacity k) []) = true
  · rw [if_pos hch]
    unfold HashTable.get
    rw [getD_set_eq _ _ _ _ hidx]
    rw [find_updateChain k v _ hch]
    rfl
  · rw [if_neg hch]
    unfold HashTable.get
    rw [getD_set_eq _ _ _ _ hidx]
    rw [List.find?_cons_of_pos _ (by simp)]
    rfl

/-- `enforce_memory_limits` is the identity while the budget is respected. -/
theorem enforce_noop (hf : List Char → Nat) (e : StorageEngine)
    (h : e.current_memory ≤ e.max_memory) :
    StorageEngine.enforce_memory_limits hf e = e := by
  show StorageEngine.enforceF hf (e.mem_manager.lru_queue.length + 1) e = e
  simp only [StorageEngine.enforceF, if_pos h]

/-- Reading past the end returns the default. -/
theorem getD_of_le {α : Type} (d : α) :
    ∀ (l : List α) (i : Nat), l.length ≤ i → l.getD i d = d := by
  intro l
  induction l with
  | nil =>
    intro i h
    rfl
  | cons x xs ih =>
    intro i h
    cases i with
    | zero => simp at h
    | succ j =>
      show xs.getD j d = d
      apply ih
      simp at h
      omega

/-- An in-range `getD` is an element of the list. -/
theorem getD_mem_of_lt {α : Type} (d : α) :
    ∀ (l : List α) (i : Nat), i < l.length → l.getD i d ∈ l := by
  intro l
  induction l with
  | nil =>
    intro i h
    simp at h
  | cons x xs ih =>
    intro i h
    cases i with
    | zero => exact List.mem_cons_self x xs
    | succ j =>
      apply List.mem_cons_of_mem
      apply ih
      simp at h
      omega

/-- `get?` determines `getD`. -/
theorem getD_of_get? {α : Type} (d : α) :
    ∀ (l : List α) (i : Nat) (b : α), l.get? i = some b → l.getD i d = b := by
  intro l
  induction l with
  | nil =>
    intro i b h
    simp at h
  | cons x xs ih =>
    intro i b h
    cases i with
    | zero => exact Option.some.inj h
    | succ j => exact ih j b h

/-- Every bucket of the all-empty replicated table is empty. -/
theorem getD_replicate_nil {α : Type} :
    ∀ (n i : Nat), (List.replicate n ([] : List α)).getD i [] = [] := by
  intro n
  induction n with
  | zero =>
    intro i
    rfl
  | succ m ih =>
    intro i
    cases i with
    | zero => rfl
    | succ j => exact ih j

/-- Flattening the all-empty replicated table gives the empty list. -/
theorem flatten_replicate_nil {α : Type} :
    ∀ n : Nat, (List.replicate n ([] : List α)).flatten = [] := by
  intro n
  induction n with
  | zero => rfl
  | succ m ih =>
    show ([] : List α) ++ (List.replicate m ([] : List α)).flatten = []
    rw [ih]
    rfl

/-- Prepending a node onto bucket `i` prepends it to the flattened table, up
to permutation. -/
theorem flatten_set_cons {α : Type} (p : α) :
    ∀ (tab : List (List α)) (i : Nat), i < tab.length →
      ((tab.set i (p :: tab.getD i [])).flatten).Perm (p :: tab.flatten) := by
  intro tab
  induction tab with
  | nil =>
    intro i h
    simp at h
  | cons b rest ih =>
    intro i h
    cases i with
    | zero =>
      show ((p :: b) :: rest).flatten.Perm (p :: (b :: rest).flatten)
      simp
    | succ j =>
      show (b :: rest.set j (p :: rest.getD j [])).flatten.Perm
        (p :: (b :: rest).flatten)
      show (b ++ (rest.set j (p :: rest.getD j [])).flatten).Perm
        (p :: (b ++ rest.flatten))
      have hj : j < rest.length := by
        simp at h
        omega
      exact List.Perm.trans (List.Perm.append_left b (ih j hj))
        List.perm_middle

/-- Rehashing one chain concatenates its nodes onto the target table, up to
permutation. -/
theorem flatten_foldl_reNode {K V : Type} [DecidableEq K] (hf : K → Nat)
    (n : Nat) (hn : 0 < n) :
    ∀ (chain : List (K × V)) (tab : List (List (K × V))), tab.length = n →
      ((chain.foldl (HashTable.reNode hf n) tab).flatten).Perm
        (chain ++ tab.flatten) := by
  intro chain
  induction chain with
  | nil =>
    intro tab htab
    exact List.Perm.refl _
  | cons p rest ih =>
    intro tab htab
    show ((rest.foldl (HashTable.reNode hf n)
      (HashTable.reNode hf n tab p)).flatten).Perm (p :: (rest ++ tab.flatten))
    have hlen : (HashTable.reNode hf n tab p).length = n := by
      simp [HashTable.reNode, htab]
    have hidx : HashTable.hashIdx hf n p.1 < tab.length := by
      rw [htab]
      exact Nat.mod_lt _ hn
    have hstep : (HashTable.reNode hf n tab p).flatten.Perm (p :: tab.flatten) :=
      flatten_set_cons p tab (HashTable.hashIdx hf n p.1) hidx
    have hrec := ih (HashTable.reNode hf n tab p) hlen
    apply List.Perm.trans hrec
    apply List.Perm.trans (List.Perm.append_left rest hstep)
    exact List.perm_middle

/-- Rehashing all buckets concatenates all nodes onto the target table, up to
permutation. -/
theorem flatten_foldl_buckets {K V : Type} [DecidableEq K] (hf : K → Nat)
    (n : Nat) (hn : 0 < n) :
    ∀ (bs : List (List (K × V))) (tab : List (List (K × V))), tab.length = n →
      ((bs.foldl (fun nt chain => chain.foldl (HashTable.reNode hf n) nt)
          tab).flatten).Perm (bs.flatten ++ tab.flatten) := by
  intro bs
  induction bs with
  | nil =>
    intro tab htab
    exact List.Perm.refl _
  | cons c cs ih =>
    intro tab htab
    show ((cs.foldl (fun nt chain => chain.foldl (HashTable.reNode hf n) nt)
      (c.foldl (HashTable.reNode hf n) tab)).flatten).Perm
      ((c ++ cs.flatten) ++ tab.flatten)
    have hlen : (c.foldl (HashTable.reNode hf n) tab).length = n := by
      rw [foldl_reNode_length, htab]
    have hrec := ih (c.foldl (HashTable.reNode hf n) tab) hlen
    apply List.Perm.trans hrec
    apply List.Perm.trans
      (List.Perm.append_left cs.flatten (flatten_foldl_reNode hf n hn c tab htab))
    rw [show (c ++ cs.flatten) ++ tab.flatten = c ++ (cs.flatten ++ tab.flatten)
      from (List.append_assoc c cs.flatten tab.flatten)]
    exact List.perm_append_comm_assoc cs.flatten c tab.flatten

/-- `resize` permutes the stored nodes. -/
theorem resize_flatten_perm {K V : Type} [DecidableEq K] (hf : K → Nat)
    (n : Nat) (hn : 0 < n) (ht : HashTable K V) :
    ((ht.resize hf n).table.flatten).Perm ht.table.flatten := by
  show ((ht.table.foldl (fun nt chain => chain.foldl (HashTable.reNode hf n) nt)
    (List.replicate n [])).flatten).Perm ht.table.flatten
  have h := flatten_foldl_buckets hf n hn ht.table (List.replicate n [])
    (by simp)
  rw [flatten_replicate_nil, List.append_nil] at h
  exact h

/-- Rehashing a node preserves bucket-correctness and places the node in its
own bucket. -/
theorem reNode_idxOk {K V : Type} [DecidableEq K] (hf : K → Nat) (n : Nat)
    (tab : List (List (K × V))) (p : K × V) (htab : tab.length = n)
    (hok : idxOk hf n tab) : idxOk hf n (HashTable.reNode hf n tab p) := by
  intro j hj q hq
  have hjlen : j < tab.length := by
    simpa [HashTable.reNode] using hj
  by_cases hji : HashTable.hashIdx hf n p.1 = j
  · have hq2 : q ∈ p :: tab.getD (HashTable.hashIdx hf n p.1) [] := by
      have heq : (HashTable.reNode hf n tab p).getD j [] =
          p :: tab.getD (HashTable.hashIdx hf n p.1) [] := by
        show (tab.set (HashTable.hashIdx hf n p.1)
          (p :: tab.getD (HashTable.hashIdx hf n p.1) [])).getD j [] = _
        rw [← hji]
        exact getD_set_eq _ _ _ _ (by rw [hji]; exact hjlen)
      rwa [heq] at hq
    rcases List.mem_cons.mp hq2 with hq3 | hq3
    · rw [hq3]
      exact hji
    · rw [hji] at hq3
      exact hok j hjlen q hq3
  · have hq2 : q ∈ tab.getD j [] := by
      have heq : (HashTable.reNode hf n tab p).getD j [] = tab.getD j [] := by
        show (tab.set (HashTable.hashIdx hf n p.1)
          (p :: tab.getD (HashTable.hashIdx hf n p.1) [])).getD j [] = _
        exact getD_set_ne _ _ _ _ _ hji
      rwa [heq] at hq
    exact hok j hjlen q hq2

/-- Bucket-correctness is preserved while rehashing a chain. -/
theorem foldl_reNode_idxOk {K V : Type} [DecidableEq K] (hf : K → Nat)
    (n : Nat) :
    ∀ (chain : List (K × V)) (tab : List (List (K × V))), tab.length = n →
      idxOk hf n tab →
      idxOk hf n (chain.foldl (HashTable.reNode hf n) tab) := by
  intro chain
  induction chain with
  | nil =>
    intro tab htab hok
    exact hok
  | cons p rest ih =>
    intro tab htab hok
    show idxOk hf n (rest.foldl (HashTable.reNode hf n)
      (HashTable.reNode hf n tab p))
    apply ih
    · simp [HashTable.reNode, htab]
    · exact reNode_idxOk hf n tab p htab hok

/-- Bucket-correctness is preserved while rehashing all buckets. -/
theorem foldl_buckets_idxOk {K V : Type} [DecidableEq K] (hf : K → Nat)
    (n : Nat) :
    ∀ (bs : List (List (K × V))) (tab : List (List (K × V))), tab.length = n →
      idxOk hf n tab →
      idxOk hf n (bs.foldl
        (fun nt chain => chain.foldl (HashTable.reNode hf n) nt) tab) := by
  intro bs
  induction bs with
  | nil =>
    intro tab htab hok
    exact hok
  | cons c cs ih =>
    intro tab htab hok
    show idxOk hf n (cs.foldl (fun nt chain => chain.foldl
      (HashTable.reNode hf n) nt) (c.foldl (HashTable.reNode hf n) tab))
    apply ih
    · rw [foldl_reNode_length, htab]
    · exact foldl_reNode_idxOk hf n c tab htab hok

/-- The resized table is bucket-correct by construction. -/
theorem resize_idxOk {K V : Type} [DecidableEq K] (hf : K → Nat) (n : Nat)
    (ht : HashTable K V) : idxOk hf n (ht.resize hf n).table := by
  show idxOk hf n (ht.table.foldl
    (fun nt chain => chain.foldl (HashTable.reNode hf n) nt)
    (List.replicate n []))
  apply foldl_buckets_idxOk hf n ht.table (List.replicate n []) (by simp)
  intro j hj q hq
  rw [getD_replicate_nil] at hq
  simp at hq

/-- `resize` to a positive capacity preserves the class invariant. -/
theorem resize_WF {K V : Type} [DecidableEq K] (hf : K → Nat) (n : Nat)
    (hn : 0 < n) (ht : HashTable K V)
    (hnodup : (ht.table.flatten.map Prod.fst).Nodup) :
    HTWF hf (ht.resize hf n) := by
  refine ⟨resize_table_length hf n ht, hn, resize_idxOk hf n ht, ?_⟩
  have hperm := (resize_flatten_perm hf n hn ht).map Prod.fst
  exact (List.Perm.nodup_iff hperm).mpr hnodup

/-- In a chain with no repeated keys, a node carrying key `k` is unique. -/
theorem nodup_key_unique {K V : Type} (k : K) :
    ∀ b : List (K × V), (b.map Prod.fst).Nodup →
      ∀ (a : V) (q : K × V), (k, a) ∈ b → q ∈ b → q.1 = k → q = (k, a) := by
  intro b
  induction b with
  | nil =>
    intro _ a q hka hq _
    simp at hq
  | cons p rest ih =>
    intro hnd a q hka hq hqk
    rw [List.map_cons, List.nodup_cons] at hnd
    obtain ⟨hnd1, hnd2⟩ := hnd
    rcases List.mem_cons.mp hka with hka1 | hka1
    · rcases List.mem_cons.mp hq with hq1 | hq1
      · rw [hq1, ← hka1]
      · exfalso
        apply hnd1
        rw [← hka1]
        show k ∈ rest.map Prod.fst
        rw [← hqk]
        exact List.mem_map_of_mem Prod.fst hq1
    · rcases List.mem_cons.mp hq with hq1 | hq1
      · exfalso
        apply hnd1
        have hpk : p.1 = k := by
          rw [← hq1]
          exact hqk
        rw [hpk]
        exact List.mem_map_of_mem Prod.fst hka1
      · exact ih hnd2 a q hka1 hq1 hqk

/-- A successful lookup exhibits the pair among the stored nodes. -/
theorem get_some_mem {K V : Type} [DecidableEq K] (hf : K → Nat) (k : K)
    (v : V) (ht : HashTable K V) (hlen : ht.table.length = ht.capacity)
    (hcap : 0 < ht.capacity) (h : ht.get hf k = some v) :
    (k, v) ∈ ht.table.flatten := by
  unfold HashTable.get at h
  rcases hfind : (ht.table.getD (HashTable.hashIdx hf ht.capacity k) []).find?
      (fun p => decide (p.1 = k)) with _ | q
  · rw [hfind] at h
    simp at h
  · rw [hfind] at h
    have hv : q.2 = v := by simpa using h
    have hqk : q.1 = k := by
      have h2 := List.find?_some hfind
      simpa using h2
    have hqmem := List.mem_of_find?_eq_some hfind
    have hbucket : ht.table.getD (HashTable.hashIdx hf ht.capacity k) [] ∈
        ht.table := by
      apply getD_mem_of_lt
      rw [hlen]
      exact Nat.mod_lt _ hcap
    have hmem : q ∈ ht.table.flatten := List.mem_flatten.mpr ⟨_, hbucket, hqmem⟩
    have hq : q = (k, v) := Prod.ext hqk hv
    rwa [hq] at hmem

/-- A stored pair is found by lookup, in any well-formed table. -/
theorem mem_get_some {K V : Type} [DecidableEq K] (hf : K → Nat) (k : K)
    (v : V) (ht : HashTable K V) (hwf : HTWF hf ht)
    (hmem : (k, v) ∈ ht.table.flatten) : ht.get hf k = some v := by
  obtain ⟨hlen, hcap, hok, hnodup⟩ := hwf
  obtain ⟨b, hb, hkb⟩ := List.mem_flatten.mp hmem
  obtain ⟨j, hj⟩ := List.get?_of_mem hb
  have hjlen : j < ht.table.length := by
    by_contra hcon
    rw [List.get?_eq_none.mpr (by omega)] at hj
    simp at hj
  have hgetD : ht.table.getD j [] = b := getD_of_get? [] ht.table j b hj
  have hidx : HashTable.hashIdx hf ht.capacity k = j := by
    have := hok j hjlen (k, v) (by rw [hgetD]; exact hkb)
    exact this
  unfold HashTable.get
  rw [hidx, hgetD]
  have hbnodup : (b.map Prod.fst).Nodup := by
    have hsub : List.Sublist b ht.table.flatten :=
      List.sublist_flatten_of_mem hb
    exact List.Nodup.sublist (List.Sublist.map Prod.fst hsub) hnodup
  rcases hfind : b.find? (fun p => decide (p.1 = k)) with _ | q
  · exfalso
    rw [List.find?_eq_none] at hfind
    exact hfind (k, v) hkb (by simp)
  · have hqk : q.1 = k := by
      have h2 := List.find?_some hfind
      simpa using h2
    have hqmem := List.mem_of_find?_eq_some hfind
    have hq : q = (k, v) := nodup_key_unique k b hbnodup v q hkb hqmem hqk
    rw [hfind, hq]
    rfl

/-- A failed lookup means no stored node carries the key, in any well-formed
table. -/
theorem get_none_forall {K V : Type} [DecidableEq K] (hf : K → Nat) (k : K)
    (ht : HashTable K V) (hwf : HTWF hf ht) (h : ht.get hf k = none) :
    ∀ q ∈ ht.table.flatten, ¬ q.1 = k := by
  obtain ⟨hlen, hcap, hok, hnodup⟩ := hwf
  intro q hq hqk
  obtain ⟨b, hb, hqb⟩ := List.mem_flatten.mp hq
  obtain ⟨j, hj⟩ := List.get?_of_mem hb
  have hjlen : j < ht.table.length := by
    by_contra hcon
    rw [List.get?_eq_none.mpr (by omega)] at hj
    simp at hj
  have hgetD : ht.table.getD j [] = b := getD_of_get? [] ht.table j b hj
  have hidx : HashTable.hashIdx hf ht.capacity q.1 = j :=
    hok j hjlen q (by rw [hgetD]; exact hqb)
  unfold HashTable.get at h
  rw [hqk] at hidx
  rw [hidx, hgetD] at h
  rcases hfind : b.find? (fun p => decide (p.1 = k)) with _ | q2
  · rw [List.find?_eq_none] at hfind
    exact hfind q hqb (by simp [hqk])
  · rw [hfind] at h
    simp at h

/-- If no stored node carries the key, lookup fails. -/
theorem get_none_of_flatten {K V : Type} [DecidableEq K] (hf : K → Nat)
    (k : K) (ht : HashTable K V)
    (h : ∀ q ∈ ht.table.flatten, ¬ q.1 = k) : ht.get hf k = none := by
  unfold HashTable.get
  have hfind : (ht.table.getD (HashTable.hashIdx hf ht.capacity k) []).find?
      (fun p => decide (p.1 = k)) = none := by
    rw [List.find?_eq_none]
    intro x hx
    by_cases hlt : HashTable.hashIdx hf ht.capacity k < ht.table.length
    · have hbmem := getD_mem_of_lt ([] : List (K × V)) ht.table _ hlt
      have hxmem : x ∈ ht.table.flatten := List.mem_flatten.mpr ⟨_, hbmem, hx⟩
      simpa using h x hxmem
    · rw [getD_of_le _ _ _ (by omega)] at hx
      simp at hx
  rw [hfind]
  rfl

/-- `resize` to a positive capacity does not change any lookup, on a
well-formed table. -/
theorem get_resize {K V : Type} [DecidableEq K] (hf : K → Nat) (n : Nat)
    (hn : 0 < n) (ht : HashTable K V) (hwf : HTWF hf ht) :
    ∀ k : K, (ht.resize hf n).get hf k = ht.get hf k := by
  intro k
  rcases hres : ht.get hf k with _ | v
  · apply get_none_of_flatten
    intro q hq
    have hmem : q ∈ ht.table.flatten :=
      ((resize_flatten_perm hf n hn ht).mem_iff).mp hq
    exact get_none_forall hf k ht hwf hres q hmem
  · apply mem_get_some hf k v _ (resize_WF hf n hn ht hwf.2.2.2)
    have hmem := get_some_mem hf k v ht hwf.1 hwf.2.1 hres
    exact ((resize_flatten_perm hf n hn ht).mem_iff).mpr hmem

/-- If no node carries the key, the unlink loop reports absence. -/
theorem removeChain_none {K V : Type} [DecidableEq K] (k : K) :
    ∀ c : List (K × V), (∀ q ∈ c, ¬ q.1 = k) →
      HashTable.removeChain k c = none := by
  intro c
  induction c with
  | nil =>
    intro h
    rfl
  | cons p rest ih =>
    intro h
    have hp : ¬ p.1 = k := h p (List.mem_cons_self p rest)
    show (if p.1 = k then some rest
      else (HashTable.removeChain k rest).map (fun c => p :: c)) = none
    rw [if_neg hp, ih (fun q hq => h q (List.mem_cons_of_mem p hq))]
    rfl

/-- If the scan finds a node with the key, the unlink loop succeeds. -/
theorem removeChain_some {K V : Type} [DecidableEq K] (k : K) :
    ∀ (c : List (K × V)) (q : K × V),
      c.find? (fun p => decide (p.1 = k)) = some q →
      ∃ c', HashTable.removeChain k c = some c' := by
  intro c
  induction c with
  | nil =>
    intro q h
    simp at h
  | cons p rest ih =>
    intro q h
    by_cases hp : p.1 = k
    · refine ⟨rest, ?_⟩
      show (if p.1 = k then some rest
        else (HashTable.removeChain k rest).map (fun c => p :: c)) = some rest
      rw [if_pos hp]
    · have h2 : rest.find? (fun p => decide (p.1 = k)) = some q := by
        rwa [List.find?_cons_of_neg _ (by simp [hp])] at h
      obtain ⟨c2, hc⟩ := ih q h2
      refine ⟨p :: c2, ?_⟩
      show (if p.1 = k then some rest
        else (HashTable.removeChain k rest).map (fun c => p :: c)) =
        some (p :: c2)
      rw [if_neg hp, hc]
      rfl

/-- The unlink loop only drops nodes. -/
theorem removeChain_sublist {K V : Type} [DecidableEq K] (k : K) :
    ∀ (c c2 : List (K × V)), HashTable.removeChain k c = some c2 →
      List.Sublist c2 c := by
  intro c
  induction c with
  | nil =>
    intro c2 h
    simp [HashTable.removeChain] at h
  | cons p rest ih =>
    intro c2 h
    rw [show HashTable.removeChain k (p :: rest) = (if p.1 = k then some rest
      else (HashTable.removeChain k rest).map (fun c => p :: c)) from rfl] at h
    by_cases hp : p.1 = k
    · rw [if_pos hp] at h
      injection h with h1
      rw [← h1]
      exact List.sublist_cons_self p rest
    · rw [if_neg hp] at h
      rcases hrc : HashTable.removeChain k rest with _ | c3
      · rw [hrc] at h
        simp at h
      · rw [hrc] at h
        have hc : p :: c3 = c2 := by simpa using h
        rw [← hc]
        exact List.Sublist.cons₂ p (ih c3 hrc)

/-- After a successful unlink on a duplicate-free chain, no node carries the
key any more. -/
theorem removeChain_not_mem {K V : Type} [DecidableEq K] (k : K) :
    ∀ (c c2 : List (K × V)), (c.map Prod.fst).Nodup →
      HashTable.removeChain k c = some c2 → ∀ q ∈ c2, ¬ q.1 = k := by
  intro c
  induction c with
  | nil =>
    intro c2 _ h
    simp [HashTable.removeChain] at h
  | cons p rest ih =>
    intro c2 hnd h
    rw [List.map_cons, List.nodup_cons] at hnd
    obtain ⟨hnd1, hnd2⟩ := hnd
    rw [show HashTable.removeChain k (p :: rest) = (if p.1 = k then some rest
      else (HashTable.removeChain k rest).map (fun c => p :: c)) from rfl] at h
    by_cases hp : p.1 = k
    · rw [if_pos hp] at h
      injection h with h1
      intro q hq hqk
      apply hnd1
      rw [hp, ← hqk]
      apply List.mem_map_of_mem Prod.fst
      rw [h1]
      exact hq
    · rw [if_neg hp] at h
      rcases hrc : HashTable.removeChain k rest with _ | c3
      · rw [hrc] at h
        simp at h
      · rw [hrc] at h
        have hc : p :: c3 = c2 := by simpa using h
        intro q hq hqk
        rw [← hc] at hq
        rcases List.mem_cons.mp hq with h1 | h1
        · rw [h1] at hqk
          exact hp hqk
        · exact ih c3 hnd2 hrc q h1 hqk

/-- Unlinking key `k` does not change which node the scan for a different
key finds. -/
theorem removeChain_find_other {K V : Type} [DecidableEq K] (k k2 : K)
    (hne : ¬ k2 = k) :
    ∀ (c c2 : List (K × V)), HashTable.removeChain k c = some c2 →
      c2.find? (fun p => decide (p.1 = k2)) =
        c.find? (fun p => decide (p.1 = k2)) := by
  intro c
  induction c with
  | nil =>
    intro c2 h
    simp [HashTable.removeChain] at h
  | cons p rest ih =>
    intro c2 h
    rw [show HashTable.removeChain k (p :: rest) = (if p.1 = k then some rest
      else (HashTable.removeChain k rest).map (fun c => p :: c)) from rfl] at h
    by_cases hp : p.1 = k
    · rw [if_pos hp] at h
      injection h with h1
      have hp2 : ¬ p.1 = k2 := by
        intro hh
        apply hne
        rw [← hh, hp]
      rw [← h1, List.find?_cons_of_neg _ (by simp [hp2])]
    · rw [if_neg hp] at h
      rcases hrc : HashTable.removeChain k rest with _ | c3
      · rw [hrc] at h
        simp at h
      · rw [hrc] at h
        have hc : p :: c3 = c2 := by simpa using h
        rw [← hc]
        by_cases hp2 : p.1 = k2
        · rw [List.find?_cons_of_pos _ (by simp [hp2]),
            List.find?_cons_of_pos _ (by simp [hp2])]
        · rw [List.find?_cons_of_neg _ (by simp [hp2]),
            List.find?_cons_of_neg _ (by simp [hp2])]
          exact ih c3 hrc

/-- Shrinking one bucket shrinks the flattened table. -/
theorem flatten_set_sublist {α : Type} :
    ∀ (tab : List (List α)) (i : Nat) (c2 : List α), i < tab.length →
      List.Sublist c2 (tab.getD i []) →
      List.Sublist (tab.set i c2).flatten tab.flatten := by
  intro tab
  induction tab with
  | nil =>
    intro i c2 h
    simp at h
  | cons b rest ih =>
    intro i c2 h hsub
    cases i with
    | zero =>
      show List.Sublist (c2 ++ rest.flatten) (b ++ rest.flatten)
      exact List.Sublist.append hsub (List.Sublist.refl _)
    | succ j =>
      show List.Sublist (b ++ (rest.set j c2).flatten) (b ++ rest.flatten)
      apply List.Sublist.append (List.Sublist.refl b)
      apply ih j c2 (by simp at h; omega) hsub

/-- Each bucket of a duplicate-free table is itself duplicate-free. -/
theorem bucket_nodup {K V : Type} (ht : HashTable K V)
    (hnodup : (ht.table.flatten.map Prod.fst).Nodup) (i : Nat) :
    ((ht.table.getD i []).map Prod.fst).Nodup := by
  by_cases hi : i < ht.table.length
  · have hb := getD_mem_of_lt ([] : List (K × V)) ht.table i hi
    have hsub : List.Sublist (ht.table.getD i []) ht.table.flatten :=
      List.sublist_flatten_of_mem hb
    exact List.Nodup.sublist (List.Sublist.map Prod.fst hsub) hnodup
  · rw [getD_of_le _ _ _ (by omega)]
    simp

/-- `HashTable::remove` on a well-formed table: failure (and no change) when
the key's bucket does not hold it; otherwise success, after which the key is
gone and every other key's lookup is untouched — also across the shrink
rehash. -/
theorem remove_spec {K V : Type} [DecidableEq K] (hf : K → Nat) (k : K)
    (ht : HashTable K V) (hwf : HTWF hf ht) :
    ((∀ q ∈ ht.table.getD (HashTable.hashIdx hf ht.capacity k) [],
        ¬ q.1 = k) → ht.remove hf k = (false, ht)) ∧
      (∀ q, (ht.table.getD (HashTable.hashIdx hf ht.capacity k) []).find?
          (fun p => decide (p.1 = k)) = some q →
        (ht.remove hf k).1 = true ∧
          (ht.remove hf k).2.get hf k = none ∧
          (∀ k2, ¬ k2 = k →
            (ht.remove hf k).2.get hf k2 = ht.get hf k2)) := by
  obtain ⟨hlen, hcap, hok, hnodup⟩ := hwf
  have hidx : HashTable.hashIdx hf ht.capacity k < ht.table.length := by
    rw [hlen]
    exact Nat.mod_lt _ hcap
  constructor
  · intro habs
    have hnone : HashTable.removeChain k
        (ht.table.getD (HashTable.hashIdx hf ht.capacity k) []) = none :=
      removeChain_none k _ habs
    simp only [HashTable.remove]
    rw [hnone]
  · intro q hfind
    obtain ⟨c2, hrc⟩ := removeChain_some k _ q hfind
    have hsubl := removeChain_sublist k _ c2 hrc
    have hwf1 : HTWF hf
        (⟨ht.table.set (HashTable.hashIdx hf ht.capacity k) c2, ht.capacity,
          ht.size - 1⟩ : HashTable K V) := by
      refine ⟨?_, hcap, ?_, ?_⟩
      · show (ht.table.set (HashTable.hashIdx hf ht.capacity k) c2).length =
          ht.capacity
        rw [List.length_set, hlen]
      · intro j hj p hp
        have hjlen : j < ht.table.length := by
          have hj2 : j < (ht.table.set (HashTable.hashIdx hf ht.capacity k)
              c2).length := hj
          rwa [List.length_set] at hj2
        by_cases hji : HashTable.hashIdx hf ht.capacity k = j
        · subst hji
          rw [show (⟨ht.table.set (HashTable.hashIdx hf ht.capacity k) c2,
              ht.capacity, ht.size - 1⟩ : HashTable K V).table.getD
                (HashTable.hashIdx hf ht.capacity k) [] =
              (ht.table.set (HashTable.hashIdx hf ht.capacity k) c2).getD
                (HashTable.hashIdx hf ht.capacity k) [] from rfl,
            getD_set_eq _ _ _ _ hjlen] at hp
          exact hok _ hjlen p (List.Sublist.subset hsubl hp)
        · rw [show (⟨ht.table.set (HashTable.hashIdx hf ht.capacity k) c2,
              ht.capacity, ht.size - 1⟩ : HashTable K V).table.getD j [] =
              (ht.table.set (HashTable.hashIdx hf ht.capacity k) c2).getD
                j [] from rfl,
            getD_set_ne _ _ _ _ _ hji] at hp
          exact hok j hjlen p hp
      · show (((ht.table.set (HashTable.hashIdx hf ht.capacity k)
          c2).flatten).map Prod.fst).Nodup
        apply List.Nodup.sublist _ hnodup
        apply List.Sublist.map Prod.fst
        exact flatten_set_sublist ht.table _ c2 hidx hsubl
    have hc2nm := removeChain_not_mem k _ c2 (bucket_nodup ht hnodup _) hrc
    have hget1none : HashTable.get hf k
        (⟨ht.table.set (HashTable.hashIdx hf ht.capacity k) c2, ht.capacity,
          ht.size - 1⟩ : HashTable K V) = none := by
      unfold HashTable.get
      rw [show (⟨ht.table.set (HashTable.hashIdx hf ht.capacity k) c2,
          ht.capacity, ht.size - 1⟩ : HashTable K V).table.getD
            (HashTable.hashIdx hf (⟨ht.table.set
              (HashTable.hashIdx hf ht.capacity k) c2, ht.capacity,
              ht.size - 1⟩ : HashTable K V).capacity k) [] =
          (ht.table.set (HashTable.hashIdx hf ht.capacity k) c2).getD
            (HashTable.hashIdx hf ht.capacity k) [] from rfl,
        getD_set_eq _ _ _ _ hidx]
      rw [List.find?_eq_none.mpr (fun x hx => by simpa using hc2nm x hx)]
      rfl
    have hget1other : ∀ k2, ¬ k2 = k →
        HashTable.get hf k2
          (⟨ht.table.set (HashTable.hashIdx hf ht.capacity k) c2, ht.capacity,
            ht.size - 1⟩ : HashTable K V) = HashTable.get hf k2 ht := by
      intro k2 hne
      unfold HashTable.get
      rw [show (⟨ht.table.set (HashTable.hashIdx hf ht.capacity k) c2,
          ht.capacity, ht.size - 1⟩ : HashTable K V).table.getD
            (HashTable.hashIdx hf (⟨ht.table.set
              (HashTable.hashIdx hf ht.capacity k) c2, ht.capacity,
              ht.size - 1⟩ : HashTable K V).capacity k2) [] =
          (ht.table.set (HashTable.hashIdx hf ht.capacity k) c2).getD
            (HashTable.hashIdx hf ht.capacity k2) [] from rfl]
      by_cases hsame : HashTable.hashIdx hf ht.capacity k2 =
          HashTable.hashIdx hf ht.capacity k
      · rw [hsame, getD_set_eq _ _ _ _ hidx,
          removeChain_find_other k k2 hne _ c2 hrc, ← hsame]
      · rw [getD_set_ne _ _ _ _ _ (fun hh => hsame hh.symm)]
    by_cases hshrink : 8 < ht.capacity ∧ 5 * (ht.size - 1) < ht.capacity
    · have hpair : ht.remove hf k = (true,
          HashTable.resize hf (ht.capacity / 2)
            (⟨ht.table.set (HashTable.hashIdx hf ht.capacity k) c2,
              ht.capacity, ht.size - 1⟩ : HashTable K V)) := by
        simp only [HashTable.remove]
        split
        · rename_i heq
          rw [hrc] at heq
          exact Option.noConfusion heq
        · rename_i c heq
          rw [hrc] at heq
          have hc : c2 = c := Option.some.inj heq
          subst hc
          rw [if_pos hshrink]
      have h2eq : (ht.remove hf k).2 = HashTable.resize hf (ht.capacity / 2)
          (⟨ht.table.set (HashTable.hashIdx hf ht.capacity k) c2,
            ht.capacity, ht.size - 1⟩ : HashTable K V) := by
        rw [hpair]
      refine ⟨by rw [hpair], ?_, ?_⟩
      · rw [h2eq, get_resize hf (ht.capacity / 2) (by omega) _ hwf1 k]
        exact hget1none
      · intro k2 hne
        rw [h2eq, get_resize hf (ht.capacity / 2) (by omega) _ hwf1 k2]
        exact hget1other k2 hne
    · have hpair : ht.remove hf k = (true,
          (⟨ht.table.set (HashTable.hashIdx hf ht.capacity k) c2,
            ht.capacity, ht.size - 1⟩ : HashTable K V)) := by
        simp only [HashTable.remove]
        split
        · rename_i heq
          rw [hrc] at heq
          exact Option.noConfusion heq
        · rename_i c heq
          rw [hrc] at heq
          have hc : c2 = c := Option.some.inj heq
          subst hc
          rw [if_neg hshrink]
      have h2eq : (ht.remove hf k).2 =
          (⟨ht.table.set (HashTable.hashIdx hf ht.capacity k) c2,
            ht.capacity, ht.size - 1⟩ : HashTable K V) := by
        rw [hpair]
      refine ⟨by rw [hpair], ?_, ?_⟩
      · rw [h2eq]
        exact hget1none
      · intro k2 hne
        rw [h2eq]
        exact hget1other k2 hne

/-- C9: on a store whose hash table satisfies the C++ class invariant,
`del(k)` with `k` present returns `true`, removes exactly `k` from the table
(every other key's lookup is unchanged, also across the shrink rehash) and
from the LRU queue (the queue becomes its own `filter`, so the relative order
of the remaining keys is untouched), and decreases `current_memory` by
exactly `len(k) + len(value)` (exact as long as the counter covers the entry,
`size_t` truncation aside); with `k` absent it returns `false` and leaves the
whole state unchanged. -/
theorem c9_del (hf : List Char → Nat) (k : List Char) (e : StorageEngine)
    (hwf : HTWF hf e.store) :
    (∀ entry, e.store.get hf k = some entry →
        (StorageEngine.del hf k e).1 = true ∧
          (StorageEngine.del hf k e).2.store.get hf k = none ∧
          (∀ k2, ¬ k2 = k →
            (StorageEngine.del hf k e).2.store.get hf k2 =
              e.store.get hf k2) ∧
          (StorageEngine.del hf k e).2.mem_manager.lru_queue =
            e.mem_manager.lru_queue.filter (fun x => decide (¬ x = k)) ∧
          (StorageEngine.del hf k e).2.current_memory =
            e.current_memory - (k.length + entry.value.length) ∧
          (k.length + entry.value.length ≤ e.current_memory →
            (StorageEngine.del hf k e).2.current_memory +
              (k.length + entry.value.length) = e.current_memory) ∧
          (StorageEngine.del hf k e).2.max_memory = e.max_memory) ∧
      (e.store.get hf k = none → StorageEngine.del hf k e = (false, e)) := by
  constructor
  · intro entry hget
    have hdel : StorageEngine.del hf k e = (true,
        { store := (e.store.remove hf k).2,
          mem_manager := e.mem_manager.evict_lru_key k,
          current_memory :=
            e.current_memory - (k.length + entry.value.length),
          max_memory := e.max_memory }) := by
      unfold StorageEngine.del
      rw [hget]
    have hq : ∃ q, (e.store.table.getD
        (HashTable.hashIdx hf e.store.capacity k) []).find?
          (fun p => decide (p.1 = k)) = some q := by
      unfold HashTable.get at hget
      rcases hfind : (e.store.table.getD
          (HashTable.hashIdx hf e.store.capacity k) []).find?
            (fun p => decide (p.1 = k)) with _ | q
      · rw [hfind] at hget
        simp at hget
      · exact ⟨q, hfind⟩
    obtain ⟨q, hfind⟩ := hq
    have hspec := (remove_spec hf k e.store hwf).2 q hfind
    refine ⟨by rw [hdel], ?_, ?_, ?_, ?_, ?_, ?_⟩
    · rw [hdel]
      exact hspec.2.1
    · intro k2 hne
      rw [hdel]
      exact hspec.2.2 k2 hne
    · rw [hdel]
      rfl
    · rw [hdel]
    · intro hle
      rw [hdel]
      show e.current_memory - (k.length + entry.value.length) +
        (k.length + entry.value.length) = e.current_memory
      omega
    · rw [hdel]
  · intro hnone
    unfold StorageEngine.del
    rw [hnone]

/-- Witness for `c9_del` after one SET on a fresh engine: deleting the
present key `k` succeeds with exact byte release; deleting the absent key
`a` (which hashes to the same bucket under the length hash) changes
nothing. -/
theorem c9_del_witness :
    (StorageEngine.del hf0 ['k'] (StorageEngine.set hf0 0 ['k'] ['v']
        secondsMax (StorageEngine.init 100))).1 = true ∧
      (StorageEngine.del hf0 ['k'] (StorageEngine.set hf0 0 ['k'] ['v']
          secondsMax (StorageEngine.init 100))).2.store.get hf0 ['k'] =
        none ∧
      (StorageEngine.del hf0 ['k'] (StorageEngine.set hf0 0 ['k'] ['v']
          secondsMax (StorageEngine.init 100))).2.current_memory + 2 =
        (StorageEngine.set hf0 0 ['k'] ['v'] secondsMax
          (StorageEngine.init 100)).current_memory ∧
      StorageEngine.del hf0 ['a'] (StorageEngine.set hf0 0 ['k'] ['v']
          secondsMax (StorageEngine.init 100)) =
        (false, StorageEngine.set hf0 0 ['k'] ['v'] secondsMax
          (StorageEngine.init 100)) := by
  have h := c9_del hf0 ['k'] (StorageEngine.set hf0 0 ['k'] ['v'] secondsMax
    (StorageEngine.init 100)) (by unfold HTWF idxOk; decide)
  have hp := h.1 ⟨['v'], secondsMax, 0⟩ (by decide)
  have h2 := c9_del hf0 ['a'] (StorageEngine.set hf0 0 ['k'] ['v'] secondsMax
    (StorageEngine.init 100)) (by unfold HTWF idxOk; decide)
  exact ⟨hp.1, hp.2.1, hp.2.2.2.2.2.1 (by decide), h2.2 (by decide)⟩

/-- C10: storing the empty string under `k` (within budget, sentinel TTL)
makes `get` return the empty string — exactly the absent-key result — so the
GET handler replies with the null bulk string, while `del` still returns
`true` (DEL replies `:1`, against `:0` for a truly absent key): reads cannot
distinguish a stored empty value from a missing key. -/
theorem c10_empty_value (hf : List Char → Nat) (now now2 : Int)
    (k : List Char) (e : StorageEngine)
    (hlen : e.store.table.length = e.store.capacity)
    (hcap : 0 < e.store.capacity)
    (hbud : e.current_memory + k.length ≤ e.max_memory) :
    (StorageEngine.get hf now2 k
        (StorageEngine.set hf now k [] secondsMax e)).1 = [] ∧
      (getHandler hf now2 [k]
          (StorageEngine.set hf now k [] secondsMax e)).1 = nullBulkResp ∧
      (StorageEngine.del hf k
          (StorageEngine.set hf now k [] secondsMax e)).1 = true ∧
      (delHandler hf [k]
          (StorageEngine.set hf now k [] secondsMax e)).1 =
        [':', '1', '\r', '\n'] ∧
      (∀ e2 : StorageEngine, e2.store.get hf k = none →
        (getHandler hf now2 [k] e2).1 = nullBulkResp ∧
          (delHandler hf [k] e2).1 = [':', '0', '\r', '\n']) := by
  have hcur : (match e.store.get hf k with
      | some old => e.current_memory - (k.length + old.value.length)
      | none => e.current_memory) + k.length +
        List.length ([] : List Char) ≤ e.max_memory := by
    rcases e.store.get hf k with _ | old
    · simp only [List.length_nil]
      omega
    · simp only [List.length_nil]
      have hs := Nat.sub_le e.current_memory (k.length + old.value.length)
      omega
  have hdefeq : StorageEngine.set hf now k [] secondsMax e =
      StorageEngine.enforce_memory_limits hf
        { store := e.store.insert hf k ⟨[], secondsMax, now⟩,
          mem_manager := e.mem_manager.update_lru k,
          current_memory := (match e.store.get hf k with
            | some old => e.current_memory - (k.length + old.value.length)
            | none => e.current_memory) + k.length +
              List.length ([] : List Char),
          max_memory := e.max_memory } := rfl
  have hsetmid : StorageEngine.set hf now k [] secondsMax e =
      { store := e.store.insert hf k ⟨[], secondsMax, now⟩,
        mem_manager := e.mem_manager.update_lru k,
        current_memory := (match e.store.get hf k with
          | some old => e.current_memory - (k.length + old.value.length)
          | none => e.current_memory) + k.length +
            List.length ([] : List Char),
        max_memory := e.max_memory } := by
    rw [hdefeq]
    exact enforce_noop hf _ hcur
  have hstore : (StorageEngine.set hf now k [] secondsMax e).store =
      e.store.insert hf k ⟨[], secondsMax, now⟩ := by
    rw [hsetmid]
  have hgetself :
      (StorageEngine.set hf now k [] secondsMax e).store.get hf k =
        some ⟨[], secondsMax, now⟩ := by
    rw [hstore]
    exact insert_get_self hf k _ e.store hlen hcap
  have hget : StorageEngine.get hf now2 k
      (StorageEngine.set hf now k [] secondsMax e) =
      ([], { StorageEngine.set hf now k [] secondsMax e with
             store := (StorageEngine.set hf now k []
               secondsMax e).store.insert hf k ⟨[], secondsMax, now2⟩,
             mem_manager := (StorageEngine.set hf now k []
               secondsMax e).mem_manager.update_lru k }) := by
    unfold StorageEngine.get
    rw [hgetself]
    dsimp only
    rw [if_neg (fun h => h.1 rfl)]
  have h1 : ([k] : List (List Char)).length = 1 := rfl
  have hgd : ([k] : List (List Char)).getD 0 [] = k := rfl
  have hdelp : StorageEngine.del hf k
      (StorageEngine.set hf now k [] secondsMax e) =
      (true,
        { store := ((StorageEngine.set hf now k []
            secondsMax e).store.remove hf k).2,
          mem_manager := (StorageEngine.set hf now k []
            secondsMax e).mem_manager.evict_lru_key k,
          current_memory := (StorageEngine.set hf now k []
            secondsMax e).current_memory -
              (k.length + List.length ([] : List Char)),
          max_memory := (StorageEngine.set hf now k []
            secondsMax e).max_memory }) := by
    unfold StorageEngine.del
    rw [hgetself]
  refine ⟨?_, ?_, ?_, ?_, ?_⟩
  · rw [hget]
  · unfold getHandler
    rw [if_pos h1, hgd, hget]
    rfl
  · rw [hdelp]
  · unfold delHandler
    rw [if_pos h1, hgd, hdelp]
    rfl
  · intro e2 hnone
    have hget2 : StorageEngine.get hf now2 k e2 = ([], e2) := by
      unfold StorageEngine.get
      rw [hnone]
    have hdel2 : StorageEngine.del hf k e2 = (false, e2) := by
      unfold StorageEngine.del
      rw [hnone]
    constructor
    · unfold getHandler
      rw [if_pos h1, hgd, hget2]
      rfl
    · unfold delHandler
      rw [if_pos h1, hgd, hdel2]
      rfl

/-- Witness for `c10_empty_value` at a fresh engine and key `k`. -/
theorem c10_empty_value_witness :
    (StorageEngine.get hf0 1 ['k'] (StorageEngine.set hf0 0 ['k'] []
        secondsMax (StorageEngine.init 100))).1 = [] ∧
      (getHandler hf0 1 [['k']] (StorageEngine.set hf0 0 ['k'] []
          secondsMax (StorageEngine.init 100))).1 = nullBulkResp ∧
      (StorageEngine.del hf0 ['k'] (StorageEngine.set hf0 0 ['k'] []
          secondsMax (StorageEngine.init 100))).1 = true ∧
      (delHandler hf0 [['k']] (StorageEngine.set hf0 0 ['k'] []
          secondsMax (StorageEngine.init 100))).1 =
        [':', '1', '\r', '\n'] ∧
      ((getHandler hf0 1 [['k']] (StorageEngine.init 50)).1 =
          nullBulkResp ∧
        (delHandler hf0 [['k']] (StorageEngine.init 50)).1 =
          [':', '0', '\r', '\n']) := by
  have h := c10_empty_value hf0 0 1 ['k'] (StorageEngine.init 100)
    (by decide) (by decide) (by decide)
  exact ⟨h.1, h.2.1, h.2.2.1, h.2.2.2.1,
    h.2.2.2.2 (StorageEngine.init 50) (by decide)⟩

/-- C3 counterexample: `SET k v EX` with the seconds argument missing is
accepted by the handler — it stores the entry with the sentinel TTL and
replies `+OK` instead of the invalid-expire-time error. -/
theorem c3_counterexample :
    (setHandler hf0 0 [['k'], ['v'], exChars] (StorageEngine.init 100)).1 =
        okResp ∧
      (setHandler hf0 0 [['k'], ['v'], exChars]
            (StorageEngine.init 100)).2.store.get hf0 ['k'] =
        some ⟨['v'], secondsMax, 0⟩ ∧
      ¬ okResp = invalidExpireErr := by
  refine ⟨rfl, ?_, by decide⟩
  decide

/-- C3 (amended): the handler enters the expire-time branch only when there
are at least four arguments and the third is `EX`; there a `stoi` failure on
the seconds argument yields the invalid-expire-time error with no store,
while any parsed integer — negative ones and values with trailing junk
included — is stored with `+OK`; with exactly three arguments (`EX` but no
seconds) the entry is silently stored with the sentinel TTL and `+OK`. -/
theorem c3_amended (hf : List Char → Nat) (now : Int) (k v s : List Char)
    (rest : List (List Char)) (e : StorageEngine) :
    (stoiOpt s = none →
        setHandler hf now ([k, v, exChars, s] ++ rest) e =
          (invalidExpireErr, e)) ∧
      (∀ n : Int, stoiOpt s = some n →
        setHandler hf now ([k, v, exChars, s] ++ rest) e =
          (okResp, StorageEngine.set hf now k v n e)) ∧
      setHandler hf now [k, v, exChars] e =
        (okResp, StorageEngine.set hf now k v secondsMax e) := by
  have hlen : ¬ ([k, v, exChars, s] ++ rest).length < 2 := by
    simp [List.length_append]
  have hcond : 4 ≤ ([k, v, exChars, s] ++ rest).length ∧
      ([k, v, exChars, s] ++ rest).getD 2 [] = exChars := by
    refine ⟨?_, rfl⟩
    simp [List.length_append]
  have hget3 : ([k, v, exChars, s] ++ rest).getD 3 [] = s := rfl
  refine ⟨?_, ?_, ?_⟩
  · intro hs
    show setHandler hf now ([k, v, exChars, s] ++ rest) e = _
    simp only [setHandler, if_neg hlen, if_pos hcond, hget3, hs]
  · intro n hs
    show setHandler hf now ([k, v, exChars, s] ++ rest) e = _
    simp only [setHandler, if_neg hlen, if_pos hcond, hget3, hs]
    rfl
  · show setHandler hf now [k, v, exChars] e = _
    have hlen3 : ¬ ([k, v, exChars] : List (List Char)).length < 2 := by simp
    have hcond3 : ¬ (4 ≤ ([k, v, exChars] : List (List Char)).length ∧
        ([k, v, exChars] : List (List Char)).getD 2 [] = exChars) := by
      intro h
      have := h.1
      simp at this
    simp only [setHandler, if_neg hlen3, if_neg hcond3]
    rfl

/-- Witness for `c3_amended`: seconds `z` rejected, `5` stored with TTL 5,
missing seconds stored with the sentinel. -/
theorem c3_amended_witness :
    setHandler hf0 0 ([['k'], ['v'], exChars, ['z']] ++ [])
        (StorageEngine.init 100) =
        (invalidExpireErr, StorageEngine.init 100) ∧
      setHandler hf0 0 ([['k'], ['v'], exChars, ['5']] ++ [])
          (StorageEngine.init 100) =
        (okResp, StorageEngine.set hf0 0 ['k'] ['v'] 5
          (StorageEngine.init 100)) ∧
      setHandler hf0 0 [['k'], ['v'], exChars] (StorageEngine.init 100) =
        (okResp, StorageEngine.set hf0 0 ['k'] ['v'] secondsMax
          (StorageEngine.init 100)) :=
  ⟨(c3_amended hf0 0 ['k'] ['v'] ['z'] [] (StorageEngine.init 100)).1
      (by decide),
   (c3_amended hf0 0 ['k'] ['v'] ['5'] [] (StorageEngine.init 100)).2.1 5
      (by decide),
   (c3_amended hf0 0 ['k'] ['v'] ['x'] [] (StorageEngine.init 100)).2.2⟩

/-- Witness for `c8_partial_parse` on a concrete bulk string, checking one
proper prefix and the full message. -/
theorem c8_partial_parse_witness :
    parse ((encode (RespValue.bulk ['h', 'i'])).take 4) = ParseOut.needMore ∧
      parse (encode (RespValue.bulk ['h', 'i'])) =
        ParseOut.ok (RespValue.bulk ['h', 'i'])
          (encode (RespValue.bulk ['h', 'i'])).length := by
  have h := c8_partial_parse (RespValue.bulk ['h', 'i'])
    (by rw [validB_bulk]; decide)
  exact ⟨h.1 4 (by rw [encode_bulk]; decide), h.2⟩

end Blink
